import Mathlib

/-!
Verification development for the BunProxy repository.

The definitions below are shallow embeddings of the TypeScript sources:
  * `src/services/proxyProtocolBuilder.ts` (PPv2 encoder),
  * `src/services/proxyProtocolParser.ts` (PPv2 decoder and chain parser),
  * `src/services/timestampPlayerMapper.ts` (Identity Map),
  * `src/services/connectionBuffer.ts` (Pending Buffer),
  * `src/services/playerIPMapper.ts` (Identity Persistence),
  * `src/services/managementAPI.ts` (control endpoint handlers),
  * the notification aggregator in `src/index.ts`
    (`makeGroupKey` / `addToConnectGroup` / `flushGroup`).

Buffers are modelled as `List Nat` of byte values, JS `Map`s as
insertion-ordered association lists, JS strings as Lean `String`s.
Stateful methods become functions from state to state.
-/

/-! ### Association lists modelling JS `Map` (insertion ordered) -/

/-- Lookup of a key in an insertion-ordered association list (JS `Map.get`). -/
def lookupA {α β : Type} [DecidableEq α] (k : α) : List (α × β) → Option β
  | [] => none
  | (k1, v1) :: rest => if k1 = k then some v1 else lookupA k rest

/-- JS `Map.set`: replace the value in place when the key exists, else append. -/
def setA {α β : Type} [DecidableEq α] (k : α) (v : β) : List (α × β) → List (α × β)
  | [] => [(k, v)]
  | (k1, v1) :: rest => if k1 = k then (k, v) :: rest else (k1, v1) :: setA k v rest

/-- JS `Map.delete`: remove the (first) entry with the given key. -/
def eraseA {α β : Type} [DecidableEq α] (k : α) : List (α × β) → List (α × β)
  | [] => []
  | (k1, v1) :: rest => if k1 = k then rest else (k1, v1) :: eraseA k rest

/-- Remove the first occurrence of an element from a list. -/
def eraseFirst {α : Type} [DecidableEq α] (a : α) : List α → List α
  | [] => []
  | x :: rest => if x = a then rest else x :: eraseFirst a rest

/-! ### JS number/string primitives used by the sources -/

/-- Decimal digit character of a value `< 10`. -/
def digitChar (n : Nat) : Char := Char.ofNat (48 + n)

/-- Lowercase hexadecimal digit character of a value `< 16`
    (as produced by JS `Number.prototype.toString(16)`). -/
def hexChar (n : Nat) : Char := if n < 10 then Char.ofNat (48 + n) else Char.ofNat (87 + n)

/-- Digit expansion of a natural number in base `b`, most significant digit
    first; the explicit fuel (any bound on the digit count, e.g. `n + 1`)
    keeps the recursion structural. -/
def toDigitsAux (b : Nat) (digit : Nat → Char) : Nat → Nat → List Char
  | 0, _ => []
  | fuel + 1, n => if n < b then [digit n] else toDigitsAux b digit fuel (n / b) ++ [digit (n % b)]

/-- Decimal representation of a natural number, as JS string conversion of an
    integer-valued number produces (no sign, no leading zeros). -/
def natToDec (n : Nat) : List Char := toDigitsAux 10 digitChar (n + 1) n

/-- Lowercase hexadecimal representation of a natural number
    (JS `n.toString(16)` for a nonnegative integer value). -/
def natToHex (n : Nat) : List Char := toDigitsAux 16 hexChar (n + 1) n

/-- Decimal string of a natural number (wrapper returning `String`). -/
def natToDecStr (n : Nat) : String := String.mk (natToDec n)

/-- Value of a list of decimal digit characters, most significant first. -/
def decVal (s : List Char) : Nat := s.foldl (fun a c => a * 10 + (c.toNat - 48)) 0

/-- Value of a list of hexadecimal digit characters, most significant first. -/
def hexDigitVal (c : Char) : Nat :=
  if c.isDigit then c.toNat - 48
  else if 'a' ≤ c ∧ c ≤ 'f' then c.toNat - 87
  else c.toNat - 55

/-- Whether a character is a hexadecimal digit (either case). -/
def isHexDigit (c : Char) : Bool :=
  c.isDigit || ('a' ≤ c && c ≤ 'f') || ('A' ≤ c && c ≤ 'F')

/-- Value of a list of hexadecimal digit characters, most significant first. -/
def hexVal (s : List Char) : Nat := s.foldl (fun a c => a * 16 + hexDigitVal c) 0

/-- Model of JS `Number(s)` restricted to the shapes the sources feed it
    (pieces of an IP address): the empty string converts to `0`, a pure
    decimal-digit string to its value, and anything else to NaN (`none`).
    Other numeric syntaxes accepted by full JS (`"0x.."`, exponents, signs,
    whitespace) do not occur in dotted-quad fragments and are mapped to
    `none` as well. -/
def jsNumber (s : List Char) : Option Nat :=
  if s = [] then some 0
  else if s.all Char.isDigit then some (decVal s) else none

/-- Model of JS `parseInt(s, 16)`: take the leading run of hex digits; if it
    is empty the result is NaN (`none`).  (The rarely relevant `0x` prefix
    stripping is not modelled; IPv6 groups never carry it.) -/
def jsParseIntHex (s : List Char) : Option Nat :=
  let ds := s.takeWhile isHexDigit
  if ds = [] then none else some (hexVal ds)

/-- Split a character list at every occurrence of a separator character,
    like JS `String.prototype.split` with a one-character separator.
    The result always has at least one (possibly empty) part. -/
def splitChar (sep : Char) : List Char → List (List Char)
  | [] => [[]]
  | c :: rest =>
    match splitChar sep rest with
    | [] => [[]]
    | p :: ps => if c = sep then [] :: p :: ps else (c :: p) :: ps

/-- Split at every (leftmost-first, non-overlapping) occurrence of the
    two-character separator `"::"`, like JS `s.split("::")`. -/
def splitCC : List Char → List (List Char)
  | [] => [[]]
  | [c] => [[c]]
  | c1 :: c2 :: rest =>
    if c1 = ':' ∧ c2 = ':' then [] :: splitCC rest
    else
      match splitCC (c2 :: rest) with
      | [] => [[c1]]
      | p :: ps => (c1 :: p) :: ps

/-- Whether `"::"` occurs in the list (JS `s.includes("::")`). -/
def hasCC : List Char → Bool
  | [] => false
  | [_] => false
  | c1 :: c2 :: rest => (c1 = ':' && c2 = ':') || hasCC (c2 :: rest)

/-- Join parts with the separator `"::"` (JS `parts.join("::")`). -/
def joinCC : List (List Char) → List Char
  | [] => []
  | [p] => p
  | p :: ps => p ++ ':' :: ':' :: joinCC ps

/-- Join parts with a one-character separator (JS `parts.join(sep)`). -/
def joinChar (sep : Char) : List (List Char) → List Char
  | [] => []
  | [p] => p
  | p :: ps => p ++ sep :: joinChar sep ps

/-- Insertion of a number into a sorted list, helper of `sortNat`. -/
def insertSorted (a : Nat) : List Nat → List Nat
  | [] => [a]
  | b :: rest => if a ≤ b then a :: b :: rest else b :: insertSorted a rest

/-- Ascending insertion sort, modelling JS `array.sort((a, b) => a - b)` on a
    list of distinct numbers. -/
def sortNat : List Nat → List Nat
  | [] => []
  | a :: rest => insertSorted a (sortNat rest)

/-- Whether a character occurs in the list (JS `s.includes(c)`). -/
def containsChar (c : Char) : List Char → Bool
  | [] => false
  | x :: rest => x = c || containsChar c rest

/-- Prefix test on character lists (JS `s.startsWith(p)`). -/
def startsWithL : List Char → List Char → Bool
  | [], _ => true
  | _ :: _, [] => false
  | p :: ps, c :: cs => p = c && startsWithL ps cs

/-- Model of Node `net.isIP(s) === 4`: a canonical dotted quad — four parts,
    each a non-empty decimal numeral without leading zeros, of value `≤ 255`. -/
def isIPv4String (s : List Char) : Bool :=
  let ps := splitChar '.' s
  ps.length = 4 && ps.all (fun p : List Char =>
    p ≠ [] && p.all Char.isDigit && (p.head? ≠ some '0' || p = ['0']) && decVal p ≤ 255)

/-- The fixed 12-byte PROXY protocol v2 signature. -/
def PROXY_V2_SIGNATURE : List Nat :=
  [0x0d, 0x0a, 0x0d, 0x0a, 0x00, 0x0d, 0x0a, 0x51, 0x55, 0x49, 0x54, 0x0a]

/-! ### `src/services/proxyProtocolBuilder.ts` -/

/-- Source `normalizeMappedIPv4`: rewrite an IPv4-mapped IPv6 literal
    `::ffff:a.b.c.d` to its dotted quad, leave everything else unchanged. -/
def normalizeMappedIPv4 (ip : String) : String :=
  if startsWithL ("::ffff:".data) ip.data then
    let parts := splitChar ':' ip.data
    let last := parts.getD (parts.length - 1) []
    if isIPv4String last then String.mk last else ip
  else ip

/-- Source `expandIPv6Parts`.  The value `none` models a NaN group (JS
    `parseInt` failure); the caller replaces it by `0`. -/
def expandIPv6Parts (ip : String) : List (Option Nat) :=
  if ¬ hasCC ip.data then
    (splitChar ':' ip.data).map (fun x => jsParseIntHex (if x = [] then ['0'] else x))
  else
    let ccParts := splitCC ip.data
    let left := ccParts.getD 0 []
    let right := ccParts.getD 1 []
    let leftParts := if left ≠ [] then (splitChar ':' left).map (fun x => jsParseIntHex (if x = [] then ['0'] else x)) else []
    let rightParts := if right ≠ [] then (splitChar ':' right).map (fun x => jsParseIntHex (if x = [] then ['0'] else x)) else []
    let missing := 8 - (leftParts.length + rightParts.length)
    ((leftParts ++ List.replicate missing (some 0) ++ rightParts).take 8).map
      (fun p : Option Nat => some (p.getD 0))

/-- JS `parts[i] || 0`: out-of-range index and NaN both give `0`. -/
def jsIdxOr0 (parts : List (Option Nat)) (i : Nat) : Nat := (parts.getD i none).getD 0

/-- `Buffer.writeUInt16BE`: two big-endian bytes; `none` models the
    `RangeError` thrown for a value outside `0 .. 65535`. -/
def writeUInt16BE (v : Nat) : Option (List Nat) :=
  if v < 65536 then some [v / 256, v % 256] else none

/-- Sequence of 16-bit big-endian writes, aborting at the first range error
    (the loops writing the eight IPv6 groups in the source). -/
def writeGroups : List Nat → Option (List Nat)
  | [] => some []
  | v :: vs => do
      let b ← writeUInt16BE v
      let rest ← writeGroups vs
      pure (b ++ rest)

/-- Source `generateProxyProtocolV2Header`.  Returns `none` when a
    `Buffer.writeUInt16BE` call would throw a `RangeError` (out-of-range port
    or IPv6 group); the callers wrap the call in `try`/`catch`.
    In the source the family test is `net.isIP(sourceIP) === 6 ||
    sourceIP.includes(':')`; a valid IPv6 literal always contains a colon, so
    the disjunction is equivalent to the colon test used here. -/
def generateProxyProtocolV2Header (sourceIP : String) (sourcePort : Nat)
    (destIP : String) (destPort : Nat) (isUDP : Bool) : Option (List Nat) :=
  let sip := normalizeMappedIPv4 sourceIP
  let dip := normalizeMappedIPv4 destIP
  let isIPv6 := containsChar ':' sip.data
  let versionAndCommand := 0x21
  let familyBits : Nat := if isIPv6 then 0x20 else 0x10
  let protocolBits : Nat := if isUDP then 0x02 else 0x01
  let familyAndProtocol := familyBits ||| protocolBits
  do
    let addressBuffer ←
      if isIPv6 then do
        let sourceParts := expandIPv6Parts sip
        let destParts := expandIPv6Parts dip
        let srcBytes ← writeGroups ((List.range 8).map (jsIdxOr0 sourceParts))
        let dstBytes ← writeGroups ((List.range 8).map (jsIdxOr0 destParts))
        let sp ← writeUInt16BE sourcePort
        let dp ← writeUInt16BE destPort
        pure (srcBytes ++ dstBytes ++ sp ++ dp)
      else do
        let srcParts := (splitChar '.' sip.data).map jsNumber
        let dstParts := (splitChar '.' dip.data).map jsNumber
        let sp ← writeUInt16BE sourcePort
        let dp ← writeUInt16BE destPort
        pure ([jsIdxOr0 srcParts 0 % 256, jsIdxOr0 srcParts 1 % 256,
               jsIdxOr0 srcParts 2 % 256, jsIdxOr0 srcParts 3 % 256,
               jsIdxOr0 dstParts 0 % 256, jsIdxOr0 dstParts 1 % 256,
               jsIdxOr0 dstParts 2 % 256, jsIdxOr0 dstParts 3 % 256] ++ sp ++ dp)
    let addressLength := addressBuffer.length
    pure (PROXY_V2_SIGNATURE ++ [versionAndCommand, familyAndProtocol]
      ++ [addressLength / 256, addressLength % 256] ++ addressBuffer)

/-- Canonical dotted-quad string built from four byte values. -/
def ipv4Str (a b c d : Nat) : String :=
  String.mk (natToDec a ++ '.' :: natToDec b ++ '.' :: natToDec c ++ '.' :: natToDec d)

/-- Fully expanded IPv6 string built from eight group values: lowercase
    minimized hex groups joined by single colons (the shape `formatIPv6`
    produces). -/
def ipv6Str (gs : List Nat) : String := String.mk (joinChar ':' (gs.map natToHex))

/-! ### `src/services/proxyProtocolParser.ts` -/

/-- Command field of a decoded PPv2 header. -/
inductive PPCommand : Type
  | LOCAL
  | PROXY
deriving DecidableEq, Repr

/-- Address family field of a decoded PPv2 header. -/
inductive PPFamily : Type
  | UNSPEC
  | INET
  | INET6
  | UNIX
deriving DecidableEq, Repr

/-- Transport protocol field of a decoded PPv2 header. -/
inductive PPTransport : Type
  | UNSPEC
  | STREAM
  | DGRAM
deriving DecidableEq, Repr

/-- Decoded PPv2 header, mirroring interface `ProxyV2Header`. -/
structure ProxyV2Header : Type where
  version : Nat
  command : PPCommand
  family : PPFamily
  protocol : PPTransport
  sourceAddress : String
  destAddress : String
  sourcePort : Nat
  destPort : Nat
  headerLength : Nat
deriving DecidableEq, Repr

/-- Source `isProxyV2`: the buffer starts with the 12-byte signature. -/
def isProxyV2 (data : List Nat) : Bool :=
  if data.length < PROXY_V2_SIGNATURE.length then false
  else data.take PROXY_V2_SIGNATURE.length = PROXY_V2_SIGNATURE

/-- Big-endian 16-bit read, `Buffer.readUInt16BE`; every use in the parser is
    guarded by a length check, so the default `0` is never observed. -/
def readUInt16BE (data : List Nat) (i : Nat) : Nat :=
  data.getD i 0 * 256 + data.getD (i + 1) 0

/-- Source `formatIPv6`: sixteen bytes grouped into eight big-endian 16-bit
    groups, printed as lowercase hex joined by `":"`. -/
def formatIPv6 (buf : List Nat) : String :=
  String.mk (joinChar ':' ((List.range 8).map (fun k => natToHex (readUInt16BE buf (2 * k)))))

/-- Source `parseProxyV2`: decode one PPv2 header at the start of the buffer,
    `none` on signature mismatch or length shortfall. -/
def parseProxyV2 (data : List Nat) : Option ProxyV2Header :=
  if ¬ isProxyV2 data then none
  else if data.length < 16 then none
  else
    let versionAndCommand := data.getD 12 0
    let version := (versionAndCommand &&& 0xf0) >>> 4
    let commandBit := versionAndCommand &&& 0x0f
    let command := if commandBit = 0x01 then PPCommand.PROXY else PPCommand.LOCAL
    let familyAndProtocol := data.getD 13 0
    let familyBit := (familyAndProtocol &&& 0xf0) >>> 4
    let protocolBit := familyAndProtocol &&& 0x0f
    let family :=
      if familyBit = 0x1 then PPFamily.INET
      else if familyBit = 0x2 then PPFamily.INET6
      else if familyBit = 0x3 then PPFamily.UNIX
      else PPFamily.UNSPEC
    let protocol :=
      if protocolBit = 0x1 then PPTransport.STREAM
      else if protocolBit = 0x2 then PPTransport.DGRAM
      else PPTransport.UNSPEC
    let addressLength := readUInt16BE data 14
    let totalHeaderLength := 16 + addressLength
    if data.length < totalHeaderLength then none
    else if family = PPFamily.INET ∧ (protocol = PPTransport.STREAM ∨ protocol = PPTransport.DGRAM) then
      if 12 ≤ addressLength then
        some { version := version, command := command, family := family, protocol := protocol,
               sourceAddress := String.mk (natToDec (data.getD 16 0) ++ '.' :: natToDec (data.getD 17 0)
                 ++ '.' :: natToDec (data.getD 18 0) ++ '.' :: natToDec (data.getD 19 0)),
               destAddress := String.mk (natToDec (data.getD 20 0) ++ '.' :: natToDec (data.getD 21 0)
                 ++ '.' :: natToDec (data.getD 22 0) ++ '.' :: natToDec (data.getD 23 0)),
               sourcePort := readUInt16BE data 24, destPort := readUInt16BE data 26,
               headerLength := totalHeaderLength }
      else
        some { version := version, command := command, family := family, protocol := protocol,
               sourceAddress := "", destAddress := "", sourcePort := 0, destPort := 0,
               headerLength := totalHeaderLength }
    else if family = PPFamily.INET6 ∧ (protocol = PPTransport.STREAM ∨ protocol = PPTransport.DGRAM) then
      if 36 ≤ addressLength then
        some { version := version, command := command, family := family, protocol := protocol,
               sourceAddress := formatIPv6 ((data.drop 16).take 16),
               destAddress := formatIPv6 ((data.drop 32).take 16),
               sourcePort := readUInt16BE data 48, destPort := readUInt16BE data 50,
               headerLength := totalHeaderLength }
      else
        some { version := version, command := command, family := family, protocol := protocol,
               sourceAddress := "", destAddress := "", sourcePort := 0, destPort := 0,
               headerLength := totalHeaderLength }
    else
      some { version := version, command := command, family := family, protocol := protocol,
             sourceAddress := "", destAddress := "", sourcePort := 0, destPort := 0,
             headerLength := totalHeaderLength }

/-- Loop body of `parseProxyV2Chain`, with the remaining iteration budget made
    explicit (the source bounds `iteration < MAX_ITER` with `MAX_ITER = 32`).
    Returns the decoded headers and the final offset. -/
def parseChainAux (data : List Nat) (offset : Nat) : Nat → List ProxyV2Header × Nat
  | 0 => ([], offset)
  | fuel + 1 =>
    if offset < data.length then
      let chunk := data.drop offset
      if isProxyV2 chunk then
        match parseProxyV2 chunk with
        | none => ([], offset)
        | some hdr =>
          let r := parseChainAux data (offset + hdr.headerLength) fuel
          (hdr :: r.1, r.2)
      else ([], offset)
    else ([], offset)

/-- Source `parseProxyV2Chain`: repeatedly decode headers (at most 32), then
    return them with the remaining payload. -/
def parseProxyV2Chain (data : List Nat) : List ProxyV2Header × List Nat :=
  let r := parseChainAux data 0 32
  (r.1, data.drop r.2)

/-- Source `getOriginalClientFromHeaders`: `null` for an empty chain; else the
    last header's source coordinates, guarded by JS truthiness of the source
    address string (empty string is falsy). -/
def getOriginalClientFromHeaders (headers : List ProxyV2Header) : Option (String × Nat) :=
  if headers.length = 0 then none
  else
    match headers[headers.length - 1]? with
    | none => none
    | some last => if last.sourceAddress ≠ "" then some (last.sourceAddress, last.sourcePort) else none

/-! ### `src/services/timestampPlayerMapper.ts` -/

/-- Protocol tag `'TCP' | 'UDP'` used throughout the sources. -/
inductive Protocol : Type
  | TCP
  | UDP
deriving DecidableEq, Repr

/-- String form of a protocol tag (JS template interpolation). -/
def protoStr : Protocol → String
  | .TCP => "TCP"
  | .UDP => "UDP"

/-- Value stored in the identity map: `{ username, timestamp }`. -/
structure PlayerEntry : Type where
  username : String
  timestamp : Int
deriving DecidableEq, Repr

/-- Tolerance constant `TIMESTAMP_TOLERANCE_MS` of the identity map. -/
def TIMESTAMP_TOLERANCE_MS : Int := 30000

/-- Source `registerLogin`: store under the exact timestamp key. -/
def registerLogin (timestamp : Int) (username : String)
    (m : List (Int × PlayerEntry)) : List (Int × PlayerEntry) :=
  setA timestamp ⟨username, timestamp⟩ m

/-- Source `registerLogout`: delete the first entry whose username matches and
    whose stored timestamp is within tolerance; no-op when none is found. -/
def registerLogout (timestamp : Int) (username : String) :
    List (Int × PlayerEntry) → List (Int × PlayerEntry)
  | [] => []
  | (k, v) :: rest =>
    if v.username = username ∧ |v.timestamp - timestamp| < TIMESTAMP_TOLERANCE_MS then rest
    else (k, v) :: registerLogout timestamp username rest

/-- Loop body of `findPlayerByTimestamp`: keep the closest qualifying match
    (strict improvement only, so the first minimum encountered wins). -/
def findStep (connectionTimestamp : Int) (best : Option (String × Int))
    (v : PlayerEntry) : Option (String × Int) :=
  let diff := |connectionTimestamp - v.timestamp|
  if diff < TIMESTAMP_TOLERANCE_MS then
    match best with
    | none => some (v.username, diff)
    | some b => if diff < b.2 then some (v.username, diff) else some b
  else best

/-- Source `findPlayerByTimestamp`: the username of the entry minimizing the
    distance to the probe, provided that distance is below tolerance. -/
def findPlayerByTimestamp (connectionTimestamp : Int)
    (m : List (Int × PlayerEntry)) : Option String :=
  (m.foldl (fun best kv => findStep connectionTimestamp best kv.2) none).map Prod.fst

/-! ### `src/services/connectionBuffer.ts` -/

/-- Pending-flow record; `cbid` identifies the `processCallback` closure of
    this insertion (the model logs invocations by this id). -/
structure PendingConnection : Type where
  ip : String
  port : Nat
  protocol : Protocol
  timestamp : Int
  target : String
  cbid : Nat
deriving DecidableEq, Repr

/-- Buffer key template `ip:port:protocol`. -/
def pendingKey (ip : String) (port : Nat) (protocol : Protocol) : String :=
  ip ++ ":" ++ natToDecStr port ++ ":" ++ protoStr protocol

/-- Source `addPending` (map update only; its `setTimeout` is modelled as a
    separate event, see `timeoutFire`).  Re-inserting an occupied key
    overwrites the stored record. -/
def addPending (ip : String) (port : Nat) (protocol : Protocol) (timestamp : Int)
    (target : String) (cbid : Nat)
    (pending : List (String × PendingConnection)) : List (String × PendingConnection) :=
  setA (pendingKey ip port protocol) ⟨ip, port, protocol, timestamp, target, cbid⟩ pending

/-- Tolerance constant `TOLERANCE_MS` of `processPendingForPlayer`. -/
def TOLERANCE_MS : Int := 30000

/-- Iteration of `processPendingForPlayer`: collect entries within tolerance
    (deleting them from the map) in encounter order; keep the rest. -/
def processLoop (timestamp : Int) :
    List (String × PendingConnection) → List PendingConnection × List (String × PendingConnection)
  | [] => ([], [])
  | (k, p) :: rest =>
    let r := processLoop timestamp rest
    if |p.timestamp - timestamp| < TOLERANCE_MS then (p :: r.1, r.2) else (r.1, (k, p) :: r.2)

/-- Source `processPendingForPlayer`: returns `(matched, unmatched)` together
    with the updated map; the player name is unused by the implementation. -/
def processPendingForPlayer (_playerName : String) (timestamp : Int)
    (pending : List (String × PendingConnection)) :
    (List PendingConnection × List PendingConnection) × List (String × PendingConnection) :=
  let r := processLoop timestamp pending
  ((r.1, r.2.map Prod.snd), r.2)

/-- Body of the `setTimeout` scheduled by `addPending` for key `key`: if the
    key is still present, delete the entry and invoke the *currently stored*
    record's callback with no identity.  Returns the new map, and the `cbid`
    of the invoked callback when the handler fired. -/
def timeoutHandler (key : String) (pending : List (String × PendingConnection)) :
    List (String × PendingConnection) × Option Nat :=
  match lookupA key pending with
  | some p => (eraseA key pending, some p.cbid)
  | none => (pending, none)

/-! ### Notification aggregator (`src/index.ts`) -/

/-- Debounce window constant `GROUP_WINDOW_MS`. -/
def GROUP_WINDOW_MS : Nat := 3000

/-- Source `makeGroupKey`: `webhook::protocol::targetKey`. -/
def makeGroupKey (webhook : String) (protocol : String) (targetKey : String) : String :=
  webhook ++ "::" ++ protocol ++ "::" ++ targetKey

/-- Aggregator state: `groupedClients` (bucket key → client ip → port set,
    all insertion ordered) and `groupTimers` (keys with an armed timer). -/
structure AggState : Type where
  groupedClients : List (String × List (String × List Nat))
  groupTimers : List String
deriving DecidableEq, Repr

/-- Aggregator with no buckets and no timers. -/
def emptyAgg : AggState := ⟨[], []⟩

/-- Payload of the single grouped webhook sent by a flush. -/
structure GroupedDispatch : Type where
  webhook : String
  protocol : String
  target : String
  groups : List (String × List Nat)
deriving DecidableEq, Repr

/-- Inner update of `addToConnectGroup` on one bucket: create the ip's port
    set when absent, then add the port to it (JS `Set.add`, so insertion
    order with no duplicates). -/
def bucketAdd (ip : String) (port : Nat)
    (m : List (String × List Nat)) : List (String × List Nat) :=
  let entry := (lookupA ip m).getD []
  let entry2 := if port ∈ entry then entry else entry ++ [port]
  setA ip entry2 m

/-- Source `addToConnectGroup`: insert the port into the ip's set inside the
    bucket of `(webhook, protocol, targetKey)`, arming the flush timer if none
    is armed for that bucket. -/
def addToConnectGroup (webhook : String) (targetKey : String) (ip : String)
    (port : Nat) (protocol : Protocol) (st : AggState) : AggState :=
  let groupKey := makeGroupKey webhook (protoStr protocol) targetKey
  let m := (lookupA groupKey st.groupedClients).getD []
  let m2 := bucketAdd ip port m
  let gc2 := setA groupKey m2 st.groupedClients
  let timers2 := if groupKey ∈ st.groupTimers then st.groupTimers else st.groupTimers ++ [groupKey]
  ⟨gc2, timers2⟩

/-- A burst of `addToConnectGroup` calls for the same listener rule
    (webhook, target, protocol), one per `(ip, port)` event, in order. -/
def connectFold (webhook : String) (targetKey : String) (protocol : Protocol)
    (events : List (String × Nat)) (st : AggState) : AggState :=
  events.foldl (fun s e => addToConnectGroup webhook targetKey e.1 e.2 protocol s) st

/-- Repeated `bucketAdd`, the bucket contents after a burst of events. -/
def bucketFold (events : List (String × Nat))
    (m : List (String × List Nat)) : List (String × List Nat) :=
  events.foldl (fun m e => bucketAdd e.1 e.2 m) m

/-- Well-formedness of a bucket: distinct ip keys, duplicate-free port sets. -/
def bucketWF (m : List (String × List Nat)) : Prop :=
  (m.map Prod.fst).Nodup ∧ ∀ e ∈ m, List.Nodup e.2

/-- Bucket membership: the bucket maps `ip` to a set containing `port`. -/
def bucketMem (m : List (String × List Nat)) (ip : String) (port : Nat) : Prop :=
  ∃ ps, (ip, ps) ∈ m ∧ port ∈ ps

/-- Source `flushGroup`: split the key back into `(webhook, protocol,
    target)`, emit one grouped webhook with each ip's ports sorted ascending,
    then delete the bucket and clear its timer.  When the bucket is absent the
    function returns without touching the timer. -/
def flushGroup (groupKey : String) (st : AggState) : Option GroupedDispatch × AggState :=
  let parts := splitCC groupKey.data
  let webhook := String.mk (parts.getD 0 [])
  let protocol := String.mk (parts.getD 1 [])
  let target := String.mk (joinCC (parts.drop 2))
  match lookupA groupKey st.groupedClients with
  | none => (none, st)
  | some m =>
    let groups := m.map (fun e => (e.1, sortNat e.2))
    (some ⟨webhook, protocol, target, groups⟩,
     ⟨eraseA groupKey st.groupedClients, eraseFirst groupKey st.groupTimers⟩)

/-! ### `src/services/playerIPMapper.ts` -/

/-- One ip entry of a persisted record.  `ports` models the JS property of the
    same name: `none` is an absent property (JS `undefined`) — the current
    code never writes it — while `some l` is a legacy persisted array. -/
structure PIPEntry : Type where
  ip : String
  protocol : Protocol
  lastSeen : Nat
  ports : Option (List Nat)
deriving DecidableEq, Repr

/-- Interface `PlayerIPRecord`. -/
structure PlayerIPRecord : Type where
  username : String
  ips : List PIPEntry
deriving DecidableEq, Repr

/-- Loop body of `load` choosing the retained entry: replace the candidate
    when the next entry has a truthy `lastSeen` strictly greater than the
    candidate's (so the first entry achieving the maximum wins). -/
def pickStep (latest : Option PIPEntry) (e : PIPEntry) : Option PIPEntry :=
  match latest with
  | none => some e
  | some l => if e.lastSeen ≠ 0 ∧ l.lastSeen < e.lastSeen then some e else some l

/-- Loop of `load` choosing the retained entry over the whole `ips` array. -/
def pickLatest (ips : List PIPEntry) : Option PIPEntry :=
  ips.foldl pickStep none

/-- Normalization applied by `load` to one parsed record: keep only the
    retained entry, drop any `ports` key, default a falsy `lastSeen` to
    `Date.now()` (the `now` argument). -/
def normalizeRecord (now : Nat) (r : PlayerIPRecord) : PlayerIPRecord :=
  match pickLatest r.ips with
  | none => ⟨r.username, []⟩
  | some latest =>
    ⟨r.username, [⟨latest.ip, latest.protocol,
      if latest.lastSeen = 0 then now else latest.lastSeen, none⟩]⟩

/-- Source `load` on a successfully parsed document: normalize every record,
    fill the storage map, and immediately `save()`.  The first returned
    component is the in-memory storage, the second the list written back to
    disk (`Array.from(this.storage.values())`). -/
def playerIPLoad (doc : List PlayerIPRecord) (now : Nat) :
    List (String × PlayerIPRecord) × List PlayerIPRecord :=
  let records := doc.map (normalizeRecord now)
  let storage := records.foldl (fun st r => setA r.username r st) []
  (storage, storage.map Prod.snd)

/-- Source `registerPlayerIP` (enabled mode): keep a single most-recent ip
    entry per username; overwrite ip/protocol when they changed and always
    refresh `lastSeen`. -/
def registerPlayerIP (username : String) (ip : String) (_port : Nat)
    (protocol : Protocol) (now : Nat)
    (st : List (String × PlayerIPRecord)) : List (String × PlayerIPRecord) :=
  let record := (lookupA username st).getD ⟨username, []⟩
  let newIps :=
    match record.ips with
    | [] => [(⟨ip, protocol, now, none⟩ : PIPEntry)]
    | existing :: _ =>
      if existing.ip ≠ ip ∨ existing.protocol ≠ protocol then
        [(⟨ip, protocol, now, existing.ports⟩ : PIPEntry)]
      else
        [(⟨existing.ip, existing.protocol, now, existing.ports⟩ : PIPEntry)]
  setA username ⟨username, newIps⟩ st

/-- Source `getPlayerIPs`. -/
def getPlayerIPs (username : String) (st : List (String × PlayerIPRecord)) :
    Option PlayerIPRecord :=
  lookupA username st

/-! ### `src/services/managementAPI.ts` — `POST /api/logout` handler -/

/-- Parsed JSON value (result of a successful `JSON.parse`). -/
inductive Json : Type
  | null
  | bool (b : Bool)
  | num (n : Int)
  | str (s : String)
  | arr (elems : List Json)
  | obj (fields : List (String × Json))

/-- Property access `data.field` on a parsed value (`undefined` is `none`). -/
def Json.getField : Json → String → Option Json
  | .obj fields, k => lookupA k fields
  | _, _ => none

/-- JS `s.trim() === ''` (also true for the falsy empty string). -/
def isBlankStr (s : String) : Bool := s.data.all Char.isWhitespace

/-- One leave-webhook call made by the logout handler
    (`createPlayerLogoutEmbed` arguments that vary). -/
structure LogoutDispatch : Type where
  webhook : String
  username : String
  ip : Option String
  ports : List Nat
  protocol : Option Protocol
deriving DecidableEq, Repr

/-- Grouping value of the logout handler's `grouped` map. -/
structure LogoutGroup : Type where
  ip : String
  ports : List Nat
  protocol : Protocol
deriving DecidableEq, Repr

/-- The logout handler's grouping loop over `ipRecord.ips`.  Spreading
    `ipInfo.ports` when the property is absent throws a `TypeError`
    (modelled by `none`), which the handler's `catch` turns into HTTP 400. -/
def buildLogoutGroups : List PIPEntry → List (String × LogoutGroup) →
    Option (List (String × LogoutGroup))
  | [], acc => some acc
  | ipInfo :: rest, acc =>
    let key := ipInfo.ip ++ ":" ++ protoStr ipInfo.protocol
    if (lookupA key acc).isSome then buildLogoutGroups rest acc
    else
      match ipInfo.ports with
      | none => none
      | some ps => buildLogoutGroups rest (setA key ⟨ipInfo.ip, ps, ipInfo.protocol⟩ acc)

/-- Outcome of one `POST /api/logout` request: HTTP status, whether the body
    carries `success: true`, the leave webhooks sent, and the identity map
    after the request. -/
structure LogoutResult : Type where
  status : Nat
  success : Bool
  dispatches : List LogoutDispatch
  players : List (Int × PlayerEntry)
deriving DecidableEq, Repr

/-- The `POST /api/logout` handler of `startManagementAPI`, from the point
    where `JSON.parse` succeeded: validate field types, unregister from the
    identity map, and (when webhooks are configured and REST mode is on) send
    one leave webhook per stored `(ip, protocol)` group per non-blank webhook
    URL, or the no-IP variant when nothing is stored.  A `TypeError` thrown
    while grouping is caught by the surrounding `catch`, which responds
    HTTP 400 without sending anything. -/
def handleLogout (data : Json) (useRestApi : Bool) (webhooks : Option (List String))
    (storage : List (String × PlayerIPRecord))
    (players : List (Int × PlayerEntry)) : LogoutResult :=
  let ts? := match data.getField "timestamp" with | some (.num n) => some n | _ => none
  let user? := match data.getField "username" with
    | some (.str s) => if s = "" then none else some s
    | _ => none
  match ts?, user? with
  | some timestamp, some username =>
    let players2 := registerLogout timestamp username players
    match webhooks, useRestApi with
    | some hooks, true =>
      let sendTo := hooks.filter (fun w => ¬ isBlankStr w)
      match getPlayerIPs username storage with
      | some ipRecord =>
        if ipRecord.ips ≠ [] then
          match buildLogoutGroups ipRecord.ips [] with
          | none => ⟨400, false, [], players2⟩
          | some grouped =>
            let ds := (grouped.map Prod.snd).flatMap (fun g =>
              sendTo.map (fun w => (⟨w, username, some g.ip, g.ports, some g.protocol⟩ : LogoutDispatch)))
            ⟨200, true, ds, players2⟩
        else
          ⟨200, true, sendTo.map (fun w => (⟨w, username, none, [], none⟩ : LogoutDispatch)), players2⟩
      | none =>
        ⟨200, true, sendTo.map (fun w => (⟨w, username, none, [], none⟩ : LogoutDispatch)), players2⟩
    | _, _ => ⟨200, true, [], players2⟩
  | _, _ => ⟨400, false, [], players⟩

/-! ### Trace machine for the pending buffer's two removal paths -/

/-- Cause recorded for the removal of a pending entry. -/
inductive RemovalCause : Type
  | timer (tid : Nat)
  | correlation
deriving DecidableEq, Repr

/-- Events affecting one `ConnectionBuffer`: an `addPending` call (whose
    insertion also schedules the timeout with id `cbid`), the firing of a
    scheduled timeout, and a `processPendingForPlayer` call from the login
    handler.  The order of the list is the order in which the event loop runs
    the handlers. -/
inductive BufEvent : Type
  | insert (ip : String) (port : Nat) (protocol : Protocol) (arrival : Int)
      (target : String) (cbid : Nat)
  | fire (cbid : Nat) (key : String)
  | login (ts : Int)
deriving DecidableEq, Repr

/-- State of the buffer machine: the pending map, the scheduled-but-unfired
    timeouts, the log of removals, and the log of invoked callbacks. -/
structure BufMachine : Type where
  pending : List (String × PendingConnection)
  timers : List (Nat × String)
  removedLog : List (Nat × RemovalCause)
  invokedLog : List Nat
deriving DecidableEq, Repr

/-- The machine before any event. -/
def initBuf : BufMachine := ⟨[], [], [], []⟩

/-- One machine step.  `insert` runs `addPending` and schedules the timeout;
    `fire` runs the timeout handler of `addPending` (delete first, then invoke
    the stored callback with no identity) provided that timeout is genuinely
    scheduled; `login` runs `processPendingForPlayer`, whose matched entries
    are removed and handled by the login route (their callbacks are not
    invoked). -/
def bufStep (m : BufMachine) : BufEvent → BufMachine
  | .insert ip port protocol arrival target cbid =>
    { m with pending := addPending ip port protocol arrival target cbid m.pending,
             timers := m.timers ++ [(cbid, pendingKey ip port protocol)] }
  | .fire cbid key =>
    if (cbid, key) ∈ m.timers then
      let timers2 := eraseFirst (cbid, key) m.timers
      match timeoutHandler key m.pending with
      | (pending2, some invoked) =>
        { pending := pending2, timers := timers2,
          removedLog := m.removedLog ++ [(invoked, RemovalCause.timer cbid)],
          invokedLog := m.invokedLog ++ [invoked] }
      | (pending2, none) => { m with pending := pending2, timers := timers2 }
    else m
  | .login ts =>
    let r := processPendingForPlayer "player" ts m.pending
    { m with pending := r.2,
             removedLog := m.removedLog ++ r.1.1.map (fun p => (p.cbid, RemovalCause.correlation)) }

/-- Run the machine over a trace from the empty buffer. -/
def runBuf (tr : List BufEvent) : BufMachine := tr.foldl bufStep initBuf

/-- The `(cbid, key)` pairs of the insert events of a trace, in order. -/
def insertsOf (tr : List BufEvent) : List (Nat × String) :=
  tr.filterMap (fun e =>
    match e with
    | .insert ip port protocol _ _ cbid => some (cbid, pendingKey ip port protocol)
    | _ => none)

/-- Whether a removal cause is a timeout. -/
def isTimerCause : RemovalCause → Bool
  | .timer _ => true
  | .correlation => false

/-- The pending-buffer exclusivity property claimed for the buffer, evaluated
    on the complete run of a trace: every inserted entry is removed exactly
    once; a removal by timeout is by the entry's own timeout (the one
    scheduled at its insertion); and the callback of an entry is invoked
    (with no identity) exactly once when the entry timed out, never when it
    was correlated away. -/
def bufferExclusive (tr : List BufEvent) : Bool :=
  let fin := runBuf tr
  (insertsOf tr).all (fun i => (fin.removedLog.filter (fun r => r.1 = i.1)).length = 1) &&
  fin.removedLog.all (fun r =>
    match r.2 with
    | .timer t => t = r.1
    | .correlation => true) &&
  (insertsOf tr).all (fun i =>
    fin.invokedLog.count i.1
      = (fin.removedLog.filter (fun r => r.1 = i.1 && isTimerCause r.2)).length)

def cntR (c : Nat) (m : BufMachine) : Nat :=
  (m.removedLog.filter (fun r => r.1 = c)).length

def cntT (c : Nat) (m : BufMachine) : Nat :=
  (m.removedLog.filter (fun r => r.1 = c && isTimerCause r.2)).length

def cntI (c : Nat) (m : BufMachine) : Nat := m.invokedLog.count c

def goodPair (m : BufMachine) (j : Nat × String) : Prop :=
  (∃ p, lookupA j.2 m.pending = some p ∧ p.cbid = j.1 ∧ (j.1, j.2) ∈ m.timers ∧
    cntR j.1 m = 0 ∧ cntI j.1 m = 0)
  ∨ (lookupA j.2 m.pending = none ∧ cntR j.1 m = 1 ∧ cntI j.1 m = cntT j.1 m)

def bufInv (J : List (Nat × String)) (m : BufMachine) : Prop :=
  (∀ r ∈ m.removedLog, r.2 = RemovalCause.timer r.1 ∨ r.2 = RemovalCause.correlation) ∧
  (∀ r ∈ m.removedLog, r.1 ∈ J.map Prod.fst) ∧
  (∀ c ∈ m.invokedLog, c ∈ J.map Prod.fst) ∧
  (∀ kp ∈ m.pending, (kp.2.cbid, kp.1) ∈ J) ∧
  (m.pending.map Prod.fst).Nodup ∧
  (∀ t ∈ m.timers, t ∈ J) ∧
  m.timers.Nodup ∧
  (∀ j ∈ J, goodPair m j)

/-! ### Concrete values used by counterexamples and witnesses -/

/-- Bytes of a decoded header with family UNSPEC (version 2, LOCAL command,
    zero-length address block): signature then `0x20 0x00` and length `0`. -/
def unspecHeaderBytes : List Nat := PROXY_V2_SIGNATURE ++ [0x20, 0x00, 0x00, 0x00]

/-- The decoded form of `unspecHeaderBytes`: its source address is the empty
    string. -/
def unspecHeader : ProxyV2Header :=
  ⟨2, .LOCAL, .UNSPEC, .UNSPEC, "", "", 0, 0, 16⟩

/-- Encoded 28-byte INET STREAM header used in concrete chain examples. -/
def c3HeaderBytes : List Nat :=
  PROXY_V2_SIGNATURE ++ [0x21, 0x11, 0, 12, 1, 2, 3, 4, 6, 7, 8, 9, 0, 5, 0, 10]

/-- Decoded form of `c3HeaderBytes`. -/
def c3Header : ProxyV2Header :=
  ⟨2, .PROXY, .INET, .STREAM, "1.2.3.4", "6.7.8.9", 5, 10, 28⟩

/-- Trace re-inserting the same flow key within the first entry's timeout
    window; both scheduled timeouts fire. -/
def c6Trace : List BufEvent :=
  [.insert "9.9.9.9" 1000 .TCP 0 "t" 1,
   .insert "9.9.9.9" 1000 .TCP 10000 "t" 2,
   .fire 1 (pendingKey "9.9.9.9" 1000 .TCP),
   .fire 2 (pendingKey "9.9.9.9" 1000 .TCP)]

/-- Trace with distinct flow keys and callback ids in which one entry is
    correlated away by a login and the other times out; both timers fire. -/
def c6GoodTrace : List BufEvent :=
  [BufEvent.insert "1.1.1.1" 100 Protocol.TCP 0 "t" 1,
   BufEvent.insert "2.2.2.2" 200 Protocol.UDP 50000 "t" 2,
   BufEvent.login 100,
   BufEvent.fire 1 (pendingKey "1.1.1.1" 100 Protocol.TCP),
   BufEvent.fire 2 (pendingKey "2.2.2.2" 200 Protocol.UDP)]

/-- Invariant of the `findPlayerByTimestamp` fold: after scanning `seen`, the
    accumulator is `none` exactly when no scanned entry qualifies, and
    otherwise holds the username and distance of a scanned entry of minimal
    qualifying distance. -/
def findInv (ts : Int) (seen : List (Int × PlayerEntry)) : Option (String × Int) → Prop
  | none => ∀ kv ∈ seen, ¬(|ts - kv.2.timestamp| < TIMESTAMP_TOLERANCE_MS)
  | some b => b.2 < TIMESTAMP_TOLERANCE_MS
      ∧ (∃ kv ∈ seen, kv.2.username = b.1 ∧ |ts - kv.2.timestamp| = b.2)
      ∧ ∀ kv ∈ seen, |ts - kv.2.timestamp| < TIMESTAMP_TOLERANCE_MS → b.2 ≤ |ts - kv.2.timestamp|

/-- Small identity map used by witnesses. -/
def c8Map : List (Int × PlayerEntry) := [(100, ⟨"alice", 100⟩), (29000, ⟨"bob", 29000⟩)]

/-- Invariant of the `pickLatest` fold: the candidate is a member of the
    scanned prefix achieving the maximal `lastSeen`. -/
def pickInv (seen : List PIPEntry) : Option PIPEntry → Prop
  | none => seen = []
  | some l => l ∈ seen ∧ ∀ x ∈ seen, x.lastSeen ≤ l.lastSeen

/-- Legacy persisted document (entries still carrying `ports` arrays) used by
    witnesses. -/
def c9Doc : List PlayerIPRecord :=
  [⟨"alice", [⟨"1.1.1.1", .TCP, 5, some [80, 443]⟩, ⟨"2.2.2.2", .UDP, 9, some [53]⟩]⟩]

/-- Store produced by `registerPlayerIP` for the logout counter-scenario:
    the single ip entry carries no `ports` property. -/
def c1Store : List (String × PlayerIPRecord) :=
  [("alice", ⟨"alice", [⟨"1.2.3.4", .TCP, 500, none⟩]⟩)]

/-- Valid logout body `{"timestamp": 1000, "username": "alice"}`. -/
def c1Body : Json := .obj [("timestamp", .num 1000), ("username", .str "alice")]

/-! ### Claim C5 — `processPendingForPlayer` -/

/-- Loop characterization: `processLoop` partitions the map by the temporal
    tolerance test, preserving order. -/
theorem processLoop_eq (ts : Int) (l : List (String × PendingConnection)) :
    processLoop ts l
      = ((l.filter (fun kp => decide (|kp.2.timestamp - ts| < TOLERANCE_MS))).map Prod.snd,
         l.filter (fun kp => !decide (|kp.2.timestamp - ts| < TOLERANCE_MS))) := by
  induction l with
  | nil => rfl
  | cons kp rest ih =>
    by_cases h : |kp.2.timestamp - ts| < TOLERANCE_MS <;>
      simp [processLoop, ih, List.filter_cons, h]

/-- C5: `processPendingForPlayer(user, ts)` returns as `matched` exactly the
    pending entries whose arrival timestamp is within 30 000 ms of `ts` (the
    username argument plays no role), removes them from the buffer before
    returning, and returns as `unmatched` exactly the entries remaining at
    that moment. -/
theorem processPending_temporal_partition (playerName : String) (timestamp : Int)
    (pending : List (String × PendingConnection)) :
    (processPendingForPlayer playerName timestamp pending).1.1
        = (pending.filter (fun kp => decide (|kp.2.timestamp - timestamp| < TOLERANCE_MS))).map Prod.snd
    ∧ (processPendingForPlayer playerName timestamp pending).2
        = pending.filter (fun kp => !decide (|kp.2.timestamp - timestamp| < TOLERANCE_MS))
    ∧ (processPendingForPlayer playerName timestamp pending).1.2
        = ((processPendingForPlayer playerName timestamp pending).2).map Prod.snd
    ∧ ∀ other : String, processPendingForPlayer other timestamp pending
        = processPendingForPlayer playerName timestamp pending := by
  refine ⟨?_, ?_, ?_, ?_⟩ <;>
    simp [processPendingForPlayer, processLoop_eq]

/-! ### Claim C7 — `getOriginalClientFromHeaders` -/

/-- C7 counterexample: `[unspecHeader]` is a non-empty list of decoded PPv2
    headers (it is what `parseProxyV2` returns on `unspecHeaderBytes`), whose
    last element has source `("", 0)`; yet `getOriginalClientFromHeaders`
    returns `none`, not that source, because the empty address string is JS
    falsy. -/
theorem originalClient_counterexample :
    parseProxyV2 unspecHeaderBytes = some unspecHeader ∧
    ([unspecHeader] : List ProxyV2Header) ≠ [] ∧
    getOriginalClientFromHeaders [unspecHeader]
      ≠ some (unspecHeader.sourceAddress, unspecHeader.sourcePort) ∧
    getOriginalClientFromHeaders [unspecHeader] = none := by decide

/-- C7 (amended): for every non-empty list of decoded PPv2 headers whose last
    header has a non-empty source address, `getOriginalClientFromHeaders`
    returns the last header's source address and port; when the last header's
    source address is empty (UNSPEC/UNIX families) it returns `none`. -/
theorem originalClient_last_header (headers : List ProxyV2Header)
    (last : ProxyV2Header) (h : headers.getLast? = some last) :
    getOriginalClientFromHeaders headers
      = if last.sourceAddress ≠ "" then some (last.sourceAddress, last.sourcePort)
        else none := by
  have hne : headers ≠ [] := by
    intro he
    subst he
    simp at h
  have hlen : headers.length ≠ 0 := by
    simpa [List.length_eq_zero] using hne
  rw [List.getLast?_eq_getElem?] at h
  unfold getOriginalClientFromHeaders
  simp only [hlen, if_false, h]

/-- Witness for `originalClient_last_header` at a concrete chain. -/
theorem originalClient_last_header_witness :
    getOriginalClientFromHeaders [unspecHeader, c3Header] = some ("1.2.3.4", 5) := by
  have h := originalClient_last_header [unspecHeader, c3Header] c3Header (by decide)
  rw [h]
  decide

/-! ### Claim C2 — PPv2 encode/decode round trip: counterexample -/

/-- C2 counterexample: `"::1"` is a valid source IP string, but the decoded
    source address of its encoding is the expanded form `"0:0:0:0:0:0:0:1"`,
    which differs from the input, and the difference is IPv6 zero-group
    expansion, not IPv4-mapped-IPv6 normalization. -/
theorem ppv2_roundtrip_counterexample :
    (generateProxyProtocolV2Header "::1" 1 "::2" 2 false).bind parseProxyV2
      = some ⟨2, .PROXY, .INET6, .STREAM, "0:0:0:0:0:0:0:1", "0:0:0:0:0:0:0:2", 1, 2, 52⟩
    ∧ ("0:0:0:0:0:0:0:1" : String) ≠ "::1" := by decide

/-! ### Claim C3 — chain extraction: counterexample -/

/-- C3 counterexample: take one encoded header `H₁ = c3HeaderBytes` and the
    byte string `B = c3HeaderBytes`.  The claim predicts headers `[H₁]` and
    payload `B`; the parser instead keeps consuming into `B` and returns two
    headers with empty payload. -/
theorem chain_extraction_counterexample :
    parseProxyV2 c3HeaderBytes = some c3Header ∧
    c3HeaderBytes.length = c3Header.headerLength ∧
    parseProxyV2Chain (c3HeaderBytes ++ c3HeaderBytes) = ([c3Header, c3Header], []) ∧
    c3HeaderBytes ≠ [] := by decide

/-! ### Claim C10 — group-key split: counterexample -/

/-- C10 counterexample: with webhook URL `"a::b"` (which contains `"::"`),
    protocol TCP and target `"t"`, the flush of the bucket that
    `addToConnectGroup` filled dispatches to webhook `"a"` with protocol
    `"b"` and target `"TCP::t"` — the key split does not recover the
    constituents. -/
theorem groupKey_split_counterexample :
    (flushGroup (makeGroupKey "a::b" (protoStr .TCP) "t")
       (addToConnectGroup "a::b" "t" "9.9.9.9" 7 .TCP emptyAgg)).1
      = some ⟨"a", "b", "TCP::t", [("9.9.9.9", [7])]⟩
    ∧ ("a" : String) ≠ "a::b" := by decide

/-! ### Claim C6 — pending-buffer removal exclusivity: counterexample -/

/-- C6 counterexample: in `c6Trace` insertion 2 reuses the key of pending
    insertion 1.  Timer 1 (scheduled by insertion 1) fires first and consumes
    insertion 2's entry — a timeout belonging to a different insertion under
    the same key — while insertion 1's entry is never removed by either path
    (the overwrite dropped it silently).  All timeouts of the trace fire and
    the callback ids are distinct, so only the claim's exclusivity fails. -/
theorem bufferExclusive_counterexample :
    bufferExclusive c6Trace = false ∧
    (runBuf c6Trace).removedLog = [(2, RemovalCause.timer 1)] ∧
    (runBuf c6Trace).timers = [] ∧
    ((insertsOf c6Trace).map Prod.fst).Nodup := by decide

/-! ### Claim C8 — `findPlayerByTimestamp` -/

/-- Step preservation of the fold invariant of `findPlayerByTimestamp`. -/
theorem findStep_inv (ts : Int) (seen : List (Int × PlayerEntry)) (best : Option (String × Int))
    (kv : Int × PlayerEntry) (h : findInv ts seen best) :
    findInv ts (seen ++ [kv]) (findStep ts best kv.2) := by
  by_cases hq : |ts - kv.2.timestamp| < TIMESTAMP_TOLERANCE_MS
  · cases best with
    | none =>
      have hstep : findStep ts none kv.2 = some (kv.2.username, |ts - kv.2.timestamp|) := by
        simp [findStep, hq]
      rw [hstep]
      simp only [findInv] at h ⊢
      refine ⟨hq, ⟨kv, by simp, rfl, rfl⟩, ?_⟩
      intro kv2 hkv2 hq2
      rcases List.mem_append.1 hkv2 with h2 | h2
      · exact absurd hq2 (h kv2 h2)
      · simp at h2
        subst h2
        exact le_refl _
    | some b =>
      simp only [findInv] at h
      obtain ⟨hb1, ⟨kvb, hkvb, hub, hdb⟩, hmin⟩ := h
      by_cases hlt : |ts - kv.2.timestamp| < b.2
      · have hstep : findStep ts (some b) kv.2 = some (kv.2.username, |ts - kv.2.timestamp|) := by
          simp [findStep, hq, hlt]
        rw [hstep]
        simp only [findInv]
        refine ⟨hq, ⟨kv, by simp, rfl, rfl⟩, ?_⟩
        intro kv2 hkv2 hq2
        rcases List.mem_append.1 hkv2 with h2 | h2
        · exact le_trans (le_of_lt hlt) (hmin kv2 h2 hq2)
        · simp at h2
          subst h2
          exact le_refl _
      · have hstep : findStep ts (some b) kv.2 = some b := by
          simp [findStep, hq, hlt]
        rw [hstep]
        simp only [findInv]
        refine ⟨hb1, ⟨kvb, List.mem_append.2 (Or.inl hkvb), hub, hdb⟩, ?_⟩
        intro kv2 hkv2 hq2
        rcases List.mem_append.1 hkv2 with h2 | h2
        · exact hmin kv2 h2 hq2
        · simp at h2
          subst h2
          exact le_of_not_lt hlt
  · have hstep : findStep ts best kv.2 = best := by
      simp [findStep, hq]
    rw [hstep]
    cases best with
    | none =>
      simp only [findInv] at h ⊢
      intro kv2 hkv2
      rcases List.mem_append.1 hkv2 with h2 | h2
      · exact h kv2 h2
      · simp at h2
        subst h2
        exact hq
    | some b =>
      simp only [findInv] at h ⊢
      obtain ⟨hb1, ⟨kvb, hkvb, hub, hdb⟩, hmin⟩ := h
      refine ⟨hb1, ⟨kvb, List.mem_append.2 (Or.inl hkvb), hub, hdb⟩, ?_⟩
      intro kv2 hkv2 hq2
      rcases List.mem_append.1 hkv2 with h2 | h2
      · exact hmin kv2 h2 hq2
      · simp at h2
        subst h2
        exact absurd hq2 hq

/-- Fold preservation of the invariant of `findPlayerByTimestamp`. -/
theorem findFold_inv (ts : Int) (l : List (Int × PlayerEntry)) :
    ∀ (seen : List (Int × PlayerEntry)) (best : Option (String × Int)),
      findInv ts seen best →
      findInv ts (seen ++ l) (l.foldl (fun b kv => findStep ts b kv.2) best) := by
  induction l with
  | nil => intro seen best h; simpa using h
  | cons kv rest ih =>
    intro seen best h
    have h2 := ih (seen ++ [kv]) (findStep ts best kv.2) (findStep_inv ts seen best kv h)
    simpa [List.append_assoc] using h2

/-- C8: `findPlayerByTimestamp(ts)` returns a username iff the identity map
    contains an entry with `|stored − ts| < 30 000 ms`, and any returned
    username belongs to an entry of minimal such distance (qualifying and no
    qualifying entry is strictly closer). -/
theorem findPlayer_tolerance (connectionTimestamp : Int) (m : List (Int × PlayerEntry)) :
    ((findPlayerByTimestamp connectionTimestamp m).isSome
        ↔ ∃ kv ∈ m, |kv.2.timestamp - connectionTimestamp| < TIMESTAMP_TOLERANCE_MS)
    ∧ ∀ u, findPlayerByTimestamp connectionTimestamp m = some u →
        ∃ kv ∈ m, kv.2.username = u
          ∧ |kv.2.timestamp - connectionTimestamp| < TIMESTAMP_TOLERANCE_MS
          ∧ ∀ kv2 ∈ m, |kv2.2.timestamp - connectionTimestamp| < TIMESTAMP_TOLERANCE_MS →
              |kv.2.timestamp - connectionTimestamp| ≤ |kv2.2.timestamp - connectionTimestamp| := by
  have hinv := findFold_inv connectionTimestamp m [] none (by simp [findInv])
  simp only [List.nil_append] at hinv
  unfold findPlayerByTimestamp
  cases hfold : m.foldl (fun best kv => findStep connectionTimestamp best kv.2) none with
  | none =>
    rw [hfold] at hinv
    simp only [findInv] at hinv
    constructor
    · simp only [Option.map_none', Option.isSome_none, Bool.false_eq_true, false_iff]
      rintro ⟨kv, hkv, hq⟩
      exact (hinv kv hkv) (by rwa [abs_sub_comm] at hq)
    · intro u hu
      simp at hu
  | some b =>
    rw [hfold] at hinv
    simp only [findInv] at hinv
    obtain ⟨hb1, ⟨kvb, hkvb, hub, hdb⟩, hmin⟩ := hinv
    constructor
    · simp only [Option.map_some', Option.isSome_some, true_iff]
      exact ⟨kvb, hkvb, by rw [abs_sub_comm, hdb]; exact hb1⟩
    · intro u hu
      simp only [Option.map_some', Option.some_inj] at hu
      refine ⟨kvb, hkvb, by rw [← hu]; exact hub, ?_, ?_⟩
      · rw [abs_sub_comm, hdb]; exact hb1
      · intro kv2 hkv2 hq2
        rw [abs_sub_comm, hdb, abs_sub_comm kv2.2.timestamp]
        exact hmin kv2 hkv2 (by rwa [abs_sub_comm] at hq2)

/-- Witness for `findPlayer_tolerance` on a concrete map. -/
theorem findPlayer_tolerance_witness : (findPlayerByTimestamp 0 c8Map).isSome :=
  (findPlayer_tolerance 0 c8Map).1.mpr ⟨(100, ⟨"alice", 100⟩), by decide, by decide⟩

/-! ### Claim C9 — persistence load normalization -/

/-- Step preservation of the `pickLatest` invariant. -/
theorem pickStep_inv (seen : List PIPEntry) (acc : Option PIPEntry) (e : PIPEntry)
    (h : pickInv seen acc) : pickInv (seen ++ [e]) (pickStep acc e) := by
  cases acc with
  | none =>
    simp only [pickInv] at h
    subst h
    simp only [pickStep, pickInv]
    refine ⟨by simp, ?_⟩
    intro x hx
    simp at hx
    subst hx
    exact le_refl _
  | some l =>
    obtain ⟨hmem, hmax⟩ := h
    simp only [pickStep]
    by_cases hc : e.lastSeen ≠ 0 ∧ l.lastSeen < e.lastSeen
    · rw [if_pos hc]
      simp only [pickInv]
      refine ⟨by simp, ?_⟩
      intro x hx
      rcases List.mem_append.1 hx with h2 | h2
      · exact le_trans (hmax x h2) (le_of_lt hc.2)
      · simp at h2
        subst h2
        exact le_refl _
    · rw [if_neg hc]
      simp only [pickInv]
      refine ⟨List.mem_append.2 (Or.inl hmem), ?_⟩
      intro x hx
      rcases List.mem_append.1 hx with h2 | h2
      · exact hmax x h2
      · simp at h2
        subst h2
        rcases not_and_or.1 hc with h3 | h3
        · have h4 : x.lastSeen = 0 := by simpa using h3
          omega
        · omega

/-- Fold preservation of the `pickLatest` invariant. -/
theorem pickFold_inv (ips : List PIPEntry) :
    ∀ seen acc, pickInv seen acc → pickInv (seen ++ ips) (ips.foldl pickStep acc) := by
  induction ips with
  | nil => intro seen acc h; simpa using h
  | cons e rest ih =>
    intro seen acc h
    have h2 := ih (seen ++ [e]) (pickStep acc e) (pickStep_inv seen acc e h)
    simpa [List.append_assoc] using h2

/-- `pickLatest` of a non-empty array returns a member maximizing `lastSeen`. -/
theorem pickLatest_max (ips : List PIPEntry) (hne : ips ≠ []) :
    ∃ e ∈ ips, pickLatest ips = some e ∧ ∀ x ∈ ips, x.lastSeen ≤ e.lastSeen := by
  have h := pickFold_inv ips [] none (by simp [pickInv])
  simp only [List.nil_append] at h
  unfold pickLatest
  cases hfold : ips.foldl pickStep none with
  | none =>
    rw [hfold] at h
    simp only [pickInv] at h
    exact absurd h hne
  | some l =>
    rw [hfold] at h
    obtain ⟨hmem, hmax⟩ := h
    exact ⟨l, hmem, rfl, hmax⟩

/-- The normalized record keeps exactly the maximizing entry, without ports. -/
theorem normalizeRecord_max (now : Nat) (r : PlayerIPRecord) (hne : r.ips ≠ []) :
    ∃ le ∈ r.ips,
      (normalizeRecord now r).ips
        = [⟨le.ip, le.protocol, if le.lastSeen = 0 then now else le.lastSeen, none⟩]
      ∧ ∀ x ∈ r.ips, x.lastSeen ≤ le.lastSeen := by
  obtain ⟨e, hmem, hpick, hmax⟩ := pickLatest_max r.ips hne
  refine ⟨e, hmem, ?_, hmax⟩
  simp [normalizeRecord, hpick]

/-- A key absent from an association list looks up to `none`. -/
theorem lookupA_none_of_not_mem {α β : Type} [DecidableEq α] (k : α) (st : List (α × β))
    (h : ∀ p ∈ st, p.1 ≠ k) : lookupA k st = none := by
  induction st with
  | nil => rfl
  | cons p rest ih =>
    have h1 := h p (by simp)
    simp only [lookupA, if_neg h1]
    exact ih (fun q hq => h q (by simp [hq]))

/-- `Map.set` with a fresh key appends the binding. -/
theorem setA_fresh {α β : Type} [DecidableEq α] (k : α) (v : β) (st : List (α × β))
    (h : ∀ p ∈ st, p.1 ≠ k) : setA k v st = st ++ [(k, v)] := by
  induction st with
  | nil => rfl
  | cons p rest ih =>
    have h1 := h p (by simp)
    simp only [setA, if_neg h1, List.cons_append]
    rw [ih (fun q hq => h q (by simp [hq]))]

/-- Filling an empty map with records of distinct usernames yields exactly the
    records as bindings, in order. -/
theorem storageFold (records : List PlayerIPRecord) :
    ∀ st : List (String × PlayerIPRecord),
      (∀ r ∈ records, ∀ p ∈ st, p.1 ≠ r.username) →
      (records.map (fun r => r.username)).Nodup →
      records.foldl (fun st r => setA r.username r st) st
        = st ++ records.map (fun r => (r.username, r)) := by
  induction records with
  | nil => intro st _ _; simp
  | cons r rest ih =>
    intro st hfresh hnodup
    simp only [List.map_cons, List.nodup_cons, List.mem_map] at hnodup
    simp only [List.foldl_cons]
    rw [setA_fresh r.username r st (fun p hp => hfresh r (by simp) p hp)]
    rw [ih (st ++ [(r.username, r)]) ?_ hnodup.2]
    · simp
    · intro r2 hr2 p hp
      rcases List.mem_append.1 hp with h2 | h2
      · exact hfresh r2 (by simp [hr2]) p h2
      · simp at h2
        subst h2
        intro he
        exact hnodup.1 ⟨r2, hr2, he.symm⟩

/-- Lookup in the storage built from records with distinct usernames. -/
theorem lookupA_assoc_of_mem (records : List PlayerIPRecord) (r : PlayerIPRecord)
    (hmem : r ∈ records) (hnodup : (records.map (fun r => r.username)).Nodup) :
    lookupA r.username (records.map (fun r => (r.username, r))) = some r := by
  induction records with
  | nil => simp at hmem
  | cons r1 rest ih =>
    simp only [List.map_cons, List.nodup_cons, List.mem_map] at hnodup
    rcases List.mem_cons.1 hmem with h1 | h1
    · subst h1
      simp [lookupA]
    · have hne : r1.username ≠ r.username := by
        intro he
        exact hnodup.1 ⟨r, h1, he.symm⟩
      simp only [List.map_cons, lookupA, if_neg hne]
      exact ih h1 hnodup.2

/-- C9: loading a persisted document whose records use the legacy shape with
    `ports` arrays produces in-memory records in which every username retains
    at most one `ips` entry — an entry with the greatest `lastSeen` — carrying
    no `ports` field, and the normalized document is immediately rewritten to
    disk (the second component of `playerIPLoad` models the `save()` call
    ending `load`). -/
theorem playerIPLoad_normalizes (doc : List PlayerIPRecord) (now : Nat)
    (husers : (doc.map (fun r => r.username)).Nodup) :
    (playerIPLoad doc now).2 = doc.map (normalizeRecord now)
    ∧ (∀ r ∈ (playerIPLoad doc now).2, r.ips.length ≤ 1 ∧ ∀ e ∈ r.ips, e.ports = none)
    ∧ (∀ r ∈ doc, lookupA r.username (playerIPLoad doc now).1 = some (normalizeRecord now r))
    ∧ ∀ r ∈ doc, r.ips ≠ [] →
        ∃ le ∈ r.ips,
          (normalizeRecord now r).ips
            = [⟨le.ip, le.protocol, if le.lastSeen = 0 then now else le.lastSeen, none⟩]
          ∧ ∀ x ∈ r.ips, x.lastSeen ≤ le.lastSeen := by
  have husername : ∀ r, (normalizeRecord now r).username = r.username := by
    intro r
    unfold normalizeRecord
    cases pickLatest r.ips <;> rfl
  have hmapu : ((doc.map (normalizeRecord now)).map (fun r => r.username)).Nodup := by
    rw [List.map_map]
    have hcomp : ((fun r : PlayerIPRecord => r.username) ∘ normalizeRecord now)
        = fun r : PlayerIPRecord => r.username := by
      funext r
      exact husername r
    rw [hcomp]
    exact husers
  have hstorage : (playerIPLoad doc now).1
      = (doc.map (normalizeRecord now)).map (fun r => (r.username, r)) := by
    simp only [playerIPLoad]
    rw [storageFold (doc.map (normalizeRecord now)) [] (by simp) hmapu]
    simp
  have hsaved : (playerIPLoad doc now).2 = doc.map (normalizeRecord now) := by
    show ((playerIPLoad doc now).1).map Prod.snd = _
    rw [hstorage, List.map_map]
    simp [Function.comp]
  refine ⟨hsaved, ?_, ?_, ?_⟩
  · intro r hr
    rw [hsaved] at hr
    obtain ⟨r0, _, hr0⟩ := List.mem_map.1 hr
    subst hr0
    constructor
    · unfold normalizeRecord
      cases pickLatest r0.ips <;> simp
    · intro e he
      unfold normalizeRecord at he
      cases hp : pickLatest r0.ips with
      | none => rw [hp] at he; simp at he
      | some l =>
        rw [hp] at he
        simp at he
        rw [he]
  · intro r hr
    rw [hstorage]
    have h := lookupA_assoc_of_mem (doc.map (normalizeRecord now)) (normalizeRecord now r)
      (List.mem_map.2 ⟨r, hr, rfl⟩) hmapu
    rwa [husername r] at h
  · intro r _ hne
    exact normalizeRecord_max now r hne

/-- Witness for `playerIPLoad_normalizes` on a concrete legacy document. -/
theorem playerIPLoad_normalizes_witness :
    (playerIPLoad c9Doc 100).2 = c9Doc.map (normalizeRecord 100) :=
  (playerIPLoad_normalizes c9Doc 100 (by decide)).1

/-! ### Claim C1 — `POST /api/logout` handler -/

/-- C1: the logout handler violates the claim on the failing input.  With a
    valid body (numeric timestamp, non-empty string username), REST mode on,
    a configured webhook and a stored identity record for the user — a record
    produced by `registerPlayerIP`, whose entries carry no `ports` property —
    the handler spreads the absent `ipInfo.ports`, throws a `TypeError`, and
    the surrounding `catch` responds HTTP 400 with no leave webhook sent,
    where the claim requires HTTP 200 with `success: true` and one leave
    webhook per stored `(ip, protocol)` group.  The last conjunct shows the
    no-record path of the same handler does return 200 with the no-IP
    variant, isolating the broken branch. -/
theorem logout_handler_bug :
    c1Store = registerPlayerIP "alice" "1.2.3.4" 700 Protocol.TCP 500 []
    ∧ (match c1Body.getField "timestamp" with
       | some (Json.num _) => true
       | _ => false) = true
    ∧ (match c1Body.getField "username" with
       | some (Json.str s) => s ≠ ""
       | _ => false) = true
    ∧ handleLogout c1Body true (some ["https://example.test/hook"]) c1Store []
        = ⟨400, false, [], []⟩
    ∧ handleLogout c1Body true (some ["https://example.test/hook"]) [] []
        = ⟨200, true, [⟨"https://example.test/hook", "alice", none, [], none⟩], []⟩ := by
  decide

/-! ### Claim C10 — group-key split (amended) -/

/-- Unfolding equation of `splitCC` on two or more characters. -/
theorem splitCC_eq_cons (c1 c2 : Char) (rest : List Char) :
    splitCC (c1 :: c2 :: rest)
      = if c1 = ':' ∧ c2 = ':' then [] :: splitCC rest
        else match splitCC (c2 :: rest) with
          | [] => [[c1]]
          | p :: ps => (c1 :: p) :: ps := rfl

/-- Unfolding equation of `hasCC` on two or more characters. -/
theorem hasCC_eq_cons (c1 c2 : Char) (rest : List Char) :
    hasCC (c1 :: c2 :: rest) = ((c1 = ':' && c2 = ':') || hasCC (c2 :: rest)) := rfl

/-- `String.split` always returns at least one part. -/
theorem splitCC_ne_nil (s : List Char) : splitCC s ≠ [] := by
  match s with
  | [] => simp [splitCC]
  | [c] => simp [splitCC]
  | c1 :: c2 :: rest =>
    rw [splitCC_eq_cons]
    by_cases h : c1 = ':' ∧ c2 = ':'
    · rw [if_pos h]
      simp
    · rw [if_neg h]
      have hne := splitCC_ne_nil (c2 :: rest)
      cases hs : splitCC (c2 :: rest) with
      | nil => exact absurd hs hne
      | cons p ps => simp

/-- Splitting on `"::"` and re-joining with `"::"` is the identity. -/
theorem joinCC_splitCC (s : List Char) : joinCC (splitCC s) = s := by
  match s with
  | [] => rfl
  | [c] => rfl
  | c1 :: c2 :: rest =>
    rw [splitCC_eq_cons]
    by_cases h : c1 = ':' ∧ c2 = ':'
    · rw [if_pos h]
      have ih := joinCC_splitCC rest
      cases hs : splitCC rest with
      | nil => exact absurd hs (splitCC_ne_nil rest)
      | cons p ps =>
        rw [hs] at ih
        simp only [joinCC, List.nil_append]
        rw [ih, h.1, h.2]
    · rw [if_neg h]
      have ih := joinCC_splitCC (c2 :: rest)
      cases hs : splitCC (c2 :: rest) with
      | nil => exact absurd hs (splitCC_ne_nil (c2 :: rest))
      | cons p ps =>
        rw [hs] at ih
        cases ps with
        | nil =>
          simp only [joinCC] at ih ⊢
          rw [ih]
        | cons q qs =>
          simp only [joinCC] at ih ⊢
          rw [List.cons_append, ih]

/-- Splitting a concatenation `w ++ "::" ++ rest` cuts exactly at the
    separator, provided `w` contains no `"::"` and does not end in `':'`
    (equivalently, `w ++ ":"` contains no `"::"`). -/
theorem splitCC_sep (rest : List Char) :
    ∀ w : List Char, hasCC (w ++ [':']) = false →
      splitCC (w ++ ':' :: ':' :: rest) = w :: splitCC rest := by
  intro w
  induction w with
  | nil => intro _; rfl
  | cons c w2 ih =>
    intro h
    cases w2 with
    | nil =>
      rw [List.cons_append, List.nil_append] at h ⊢
      rw [hasCC_eq_cons] at h
      have hc : ¬(c = ':' ∧ (':' : Char) = ':') := by
        intro hx
        rw [hx.1] at h
        simp at h
      rw [splitCC_eq_cons, if_neg hc]
      rfl
    | cons d w3 =>
      simp only [List.cons_append] at h ⊢
      rw [hasCC_eq_cons] at h
      rcases Bool.or_eq_false_iff.1 h with ⟨hcd, h2⟩
      have hcd2 : ¬(c = ':' ∧ d = ':') := by
        intro hx
        rw [hx.1, hx.2] at hcd
        simp at hcd
      have ih2 := ih (by simp only [List.cons_append]; exact h2)
      simp only [List.cons_append] at ih2
      rw [splitCC_eq_cons, if_neg hcd2]
      rw [ih2]

/-- `Map.get` after `Map.set` of the same key. -/
theorem lookupA_setA_self {α β : Type} [DecidableEq α] (k : α) (v : β) (l : List (α × β)) :
    lookupA k (setA k v l) = some v := by
  induction l with
  | nil => simp [setA, lookupA]
  | cons p rest ih =>
    obtain ⟨k1, v1⟩ := p
    by_cases h : k1 = k
    · simp only [setA]
      rw [if_pos h]
      simp [lookupA]
    · simp only [setA]
      rw [if_neg h]
      simp only [lookupA]
      rw [if_neg h]
      exact ih

/-- Protocol strings are safe on the left of the `"::"` separator. -/
theorem protoStr_cc_safe (p : Protocol) : hasCC ((protoStr p).data ++ [':']) = false := by
  cases p <;> decide

/-- C10 (amended): flushing the bucket into which
    `addToConnectGroup(w, t, ip, port, p)` inserted dispatches the grouped
    webhook to exactly the URL `w`, protocol string of `p` and target `t`,
    provided the webhook URL contains no `"::"` and does not end in `':'`
    (the target may contain `"::"` freely; webhook URLs violating the proviso
    are mis-split, see the counterexample). -/
theorem flush_dispatch_recovers (w t ip : String) (port : Nat) (p : Protocol) (st : AggState)
    (hw : hasCC (w.data ++ [':']) = false) :
    ((flushGroup (makeGroupKey w (protoStr p) t) (addToConnectGroup w t ip port p st)).1).map
        GroupedDispatch.webhook = some w
    ∧ ((flushGroup (makeGroupKey w (protoStr p) t) (addToConnectGroup w t ip port p st)).1).map
        GroupedDispatch.protocol = some (protoStr p)
    ∧ ((flushGroup (makeGroupKey w (protoStr p) t) (addToConnectGroup w t ip port p st)).1).map
        GroupedDispatch.target = some t := by
  have hdata : (makeGroupKey w (protoStr p) t).data
      = w.data ++ ':' :: ':' :: ((protoStr p).data ++ ':' :: ':' :: t.data) := by
    simp only [makeGroupKey, String.data_append]
    simp [List.append_assoc]
  have hsplit : splitCC (makeGroupKey w (protoStr p) t).data
      = w.data :: (protoStr p).data :: splitCC t.data := by
    rw [hdata, splitCC_sep _ w.data hw,
        splitCC_sep _ (protoStr p).data (protoStr_cc_safe p)]
  have hbucket : lookupA (makeGroupKey w (protoStr p) t)
      (addToConnectGroup w t ip port p st).groupedClients ≠ none := by
    simp only [addToConnectGroup]
    rw [lookupA_setA_self]
    simp
  unfold flushGroup
  rw [hsplit]
  cases hm : lookupA (makeGroupKey w (protoStr p) t)
      (addToConnectGroup w t ip port p st).groupedClients with
  | none => exact absurd hm hbucket
  | some m =>
    refine ⟨?_, ?_, ?_⟩ <;> simp [joinCC_splitCC]

/-- Witness for `flush_dispatch_recovers` at a concrete bucket. -/
theorem flush_dispatch_recovers_witness :
    ((flushGroup (makeGroupKey "https://example.test/hook" (protoStr .TCP) "mc:19132")
        (addToConnectGroup "https://example.test/hook" "mc:19132" "9.9.9.9" 7 .TCP emptyAgg)).1).map
      GroupedDispatch.webhook = some "https://example.test/hook" :=
  (flush_dispatch_recovers "https://example.test/hook" "mc:19132" "9.9.9.9" 7 .TCP emptyAgg
    (by decide)).1

/-! ### Claim C4 — aggregator debounce -/


/-- Lookup of a different key is unchanged by `Map.set`. -/
theorem lookupA_setA_ne {α β : Type} [DecidableEq α] (k k2 : α) (v : β) (l : List (α × β))
    (h : ¬(k2 = k)) : lookupA k2 (setA k v l) = lookupA k2 l := by
  induction l with
  | nil =>
    simp only [setA, lookupA]
    rw [if_neg (fun he : k = k2 => h he.symm)]
  | cons p rest ih =>
    obtain ⟨k1, v1⟩ := p
    by_cases h1 : k1 = k
    · simp only [setA]
      rw [if_pos h1]
      simp only [lookupA]
      rw [if_neg (fun he : k = k2 => h he.symm), if_neg (fun he : k1 = k2 => h (h1 ▸ he).symm)]
    · simp only [setA]
      rw [if_neg h1]
      simp only [lookupA]
      by_cases h2 : k1 = k2
      · rw [if_pos h2, if_pos h2]
      · rw [if_neg h2, if_neg h2]
        exact ih

/-- Two `Map.set` calls on the same key collapse to the last one. -/
theorem setA_setA {α β : Type} [DecidableEq α] (k : α) (v1 v2 : β) (l : List (α × β)) :
    setA k v2 (setA k v1 l) = setA k v2 l := by
  induction l with
  | nil => simp [setA]
  | cons p rest ih =>
    obtain ⟨k1, w⟩ := p
    by_cases h : k1 = k
    · subst h
      simp [setA]
    · have h1 : setA k v1 ((k1, w) :: rest) = (k1, w) :: setA k v1 rest := by
        simp only [setA]
        rw [if_neg h]
      have h2 : setA k v2 ((k1, w) :: rest) = (k1, w) :: setA k v2 rest := by
        simp only [setA]
        rw [if_neg h]
      have h3 : setA k v2 ((k1, w) :: setA k v1 rest)
          = (k1, w) :: setA k v2 (setA k v1 rest) := by
        simp only [setA]
        rw [if_neg h]
      rw [h1, h3, ih, h2]

/-- A successful lookup result is a member of the list. -/
theorem lookupA_some_mem {α β : Type} [DecidableEq α] (k : α) (v : β) (l : List (α × β))
    (h : lookupA k l = some v) : (k, v) ∈ l := by
  induction l with
  | nil => simp [lookupA] at h
  | cons p rest ih =>
    obtain ⟨k1, v1⟩ := p
    simp only [lookupA] at h
    by_cases h1 : k1 = k
    · rw [if_pos h1] at h
      subst h1
      have hv := Option.some.inj h
      subst hv
      simp
    · rw [if_neg h1] at h
      simp [ih h]

/-- With distinct keys, every binding is found by lookup. -/
theorem lookupA_of_mem_nodup {α β : Type} [DecidableEq α] (k : α) (v : β) (l : List (α × β))
    (hmem : (k, v) ∈ l) (hnodup : (l.map Prod.fst).Nodup) : lookupA k l = some v := by
  induction l with
  | nil => simp at hmem
  | cons p rest ih =>
    obtain ⟨k1, v1⟩ := p
    simp only [List.map_cons, List.nodup_cons, List.mem_map] at hnodup
    rcases List.mem_cons.1 hmem with h1 | h1
    · rw [Prod.mk.injEq] at h1
      obtain ⟨hk, hv⟩ := h1
      subst hk; subst hv
      simp [lookupA]
    · have hne : ¬(k1 = k) := by
        intro he
        subst he
        exact hnodup.1 ⟨(k1, v), h1, rfl⟩
      simp only [lookupA]
      rw [if_neg hne]
      exact ih h1 hnodup.2

/-- Membership after `Map.set`, under distinct keys. -/
theorem mem_setA_iff {α β : Type} [DecidableEq α] (k : α) (v : β) (l : List (α × β))
    (p : α × β) (hnodup : (l.map Prod.fst).Nodup) :
    p ∈ setA k v l ↔ p = (k, v) ∨ (p ∈ l ∧ ¬(p.1 = k)) := by
  induction l with
  | nil => simp [setA]
  | cons q rest ih =>
    obtain ⟨k1, v1⟩ := q
    simp only [List.map_cons, List.nodup_cons, List.mem_map] at hnodup
    by_cases h1 : k1 = k
    · subst h1
      simp only [setA, if_pos rfl]
      constructor
      · intro hp
        rcases List.mem_cons.1 hp with h2 | h2
        · exact Or.inl h2
        · refine Or.inr ⟨List.mem_cons.2 (Or.inr h2), ?_⟩
          intro he
          exact hnodup.1 ⟨p, h2, he⟩
      · rintro (h2 | ⟨h2, h3⟩)
        · simp [h2]
        · rcases List.mem_cons.1 h2 with h4 | h4
          · exact absurd (by rw [h4]) h3
          · exact List.mem_cons.2 (Or.inr h4)
    · simp only [setA, if_neg h1]
      constructor
      · intro hp
        rcases List.mem_cons.1 hp with h2 | h2
        · refine Or.inr ⟨List.mem_cons.2 (Or.inl h2), ?_⟩
          rw [h2]
          exact h1
        · rcases (ih hnodup.2).1 h2 with h3 | ⟨h3, h4⟩
          · exact Or.inl h3
          · exact Or.inr ⟨List.mem_cons.2 (Or.inr h3), h4⟩
      · rintro (h2 | ⟨h2, h3⟩)
        · exact List.mem_cons.2 (Or.inr ((ih hnodup.2).2 (Or.inl h2)))
        · rcases List.mem_cons.1 h2 with h4 | h4
          · exact List.mem_cons.2 (Or.inl h4)
          · exact List.mem_cons.2 (Or.inr ((ih hnodup.2).2 (Or.inr ⟨h4, h3⟩)))

/-- `Map.set` preserves distinctness of keys. -/
theorem setA_keys_nodup {α β : Type} [DecidableEq α] (k : α) (v : β) (l : List (α × β))
    (hnodup : (l.map Prod.fst).Nodup) : ((setA k v l).map Prod.fst).Nodup := by
  induction l with
  | nil => simp [setA]
  | cons q rest ih =>
    obtain ⟨k1, v1⟩ := q
    simp only [List.map_cons, List.nodup_cons, List.mem_map] at hnodup
    by_cases h1 : k1 = k
    · subst h1
      have hset : setA k1 v ((k1, v1) :: rest) = (k1, v) :: rest := by
        simp [setA]
      rw [hset]
      simp only [List.map_cons, List.nodup_cons]
      refine ⟨?_, hnodup.2⟩
      intro hmem
      simp only [List.mem_map] at hmem
      obtain ⟨p, hp, hpk⟩ := hmem
      exact hnodup.1 ⟨p, hp, hpk⟩
    · simp only [setA, if_neg h1, List.map_cons, List.nodup_cons]
      refine ⟨?_, ih hnodup.2⟩
      intro hmem
      simp only [List.mem_map] at hmem
      obtain ⟨p, hp, hpk⟩ := hmem
      rcases (mem_setA_iff k v rest p hnodup.2).1 hp with h2 | ⟨h2, _⟩
      · rw [h2] at hpk
        exact h1 hpk.symm
      · exact hnodup.1 ⟨p, h2, hpk⟩

/-- Sorted insertion is a permutation of consing. -/
theorem insertSorted_perm (a : Nat) (l : List Nat) : (insertSorted a l).Perm (a :: l) := by
  induction l with
  | nil => simp [insertSorted]
  | cons b rest ih =>
    simp only [insertSorted]
    by_cases h : a ≤ b
    · rw [if_pos h]
    · rw [if_neg h]
      exact (List.Perm.cons b ih).trans (List.Perm.swap a b rest)

/-- `sortNat` permutes its input. -/
theorem sortNat_perm (l : List Nat) : (sortNat l).Perm l := by
  induction l with
  | nil => simp [sortNat]
  | cons a rest ih =>
    simp only [sortNat]
    exact (insertSorted_perm a (sortNat rest)).trans (List.Perm.cons a ih)

/-- Sorted insertion preserves sortedness. -/
theorem insertSorted_sorted (a : Nat) (l : List Nat) (h : List.Sorted (· ≤ ·) l) :
    List.Sorted (· ≤ ·) (insertSorted a l) := by
  induction l with
  | nil => simp [insertSorted]
  | cons b rest ih =>
    rw [List.sorted_cons] at h
    simp only [insertSorted]
    by_cases hab : a ≤ b
    · rw [if_pos hab]
      rw [List.sorted_cons]
      refine ⟨?_, List.sorted_cons.2 h⟩
      intro y hy
      rcases List.mem_cons.1 hy with h2 | h2
      · rw [h2]
        exact hab
      · exact le_trans hab (h.1 y h2)
    · rw [if_neg hab]
      rw [List.sorted_cons]
      refine ⟨?_, ih h.2⟩
      intro y hy
      rcases List.mem_cons.1 ((insertSorted_perm a rest).mem_iff.1 hy) with h2 | h2
      · subst h2
        omega
      · exact h.1 y h2

/-- `sortNat` sorts ascending. -/
theorem sortNat_sorted (l : List Nat) : List.Sorted (· ≤ ·) (sortNat l) := by
  induction l with
  | nil => simp [sortNat]
  | cons a rest ih => exact insertSorted_sorted a (sortNat rest) ih

/-! bucket lemmas -/

/-- `bucketAdd` preserves bucket well-formedness. -/
theorem bucketAdd_wf (ip : String) (port : Nat) (m : List (String × List Nat))
    (h : bucketWF m) : bucketWF (bucketAdd ip port m) := by
  obtain ⟨hkeys, hports⟩ := h
  constructor
  · exact setA_keys_nodup ip _ m hkeys
  · intro e he
    rcases (mem_setA_iff ip _ m e hkeys).1 he with h2 | ⟨h2, _⟩
    · subst h2
      by_cases hp : port ∈ (lookupA ip m).getD []
      · rw [if_pos hp]
        cases hl : lookupA ip m with
        | none => simp [hl]
        | some entry =>
          simp only [hl, Option.getD_some]
          exact hports (ip, entry) (lookupA_some_mem ip entry m hl)
      · rw [if_neg hp]
        cases hl : lookupA ip m with
        | none => simp [hl]
        | some entry =>
          simp only [hl, Option.getD_some] at hp ⊢
          rw [List.nodup_append]
          refine ⟨hports (ip, entry) (lookupA_some_mem ip entry m hl), List.nodup_singleton port, ?_⟩
          intro x hx
          simp only [List.mem_singleton]
          intro he2
          subst he2
          exact hp hx
    · exact hports e h2

/-- Bucket membership after one `bucketAdd`. -/
theorem bucketAdd_mem (ip : String) (port : Nat) (m : List (String × List Nat))
    (h : bucketWF m) (ip2 : String) (port2 : Nat) :
    bucketMem (bucketAdd ip port m) ip2 port2
      ↔ (ip2 = ip ∧ port2 = port) ∨ bucketMem m ip2 port2 := by
  obtain ⟨hkeys, _⟩ := h
  unfold bucketMem bucketAdd
  constructor
  · rintro ⟨ps, hps, hport⟩
    rcases (mem_setA_iff ip _ m (ip2, ps) hkeys).1 hps with h2 | ⟨h2, h3⟩
    · rw [Prod.mk.injEq] at h2
      obtain ⟨hip, hps2⟩ := h2
      subst hip
      subst hps2
      by_cases hp : port ∈ (lookupA ip2 m).getD []
      · rw [if_pos hp] at hport
        cases hl : lookupA ip2 m with
        | none => simp [hl] at hport
        | some entry =>
          simp only [hl, Option.getD_some] at hport
          exact Or.inr ⟨entry, lookupA_some_mem ip2 entry m hl, hport⟩
      · rw [if_neg hp] at hport
        rcases List.mem_append.1 hport with h4 | h4
        · cases hl : lookupA ip2 m with
          | none => simp [hl] at h4
          | some entry =>
            simp only [hl, Option.getD_some] at h4
            exact Or.inr ⟨entry, lookupA_some_mem ip2 entry m hl, h4⟩
        · rw [List.mem_singleton] at h4
          exact Or.inl ⟨rfl, h4⟩
    · exact Or.inr ⟨ps, h2, hport⟩
  · rintro (⟨hip, hport⟩ | ⟨ps, hps, hport⟩)
    · subst hip
      subst hport
      refine ⟨(if port2 ∈ (lookupA ip2 m).getD [] then (lookupA ip2 m).getD []
               else (lookupA ip2 m).getD [] ++ [port2]), ?_, ?_⟩
      · exact (mem_setA_iff ip2 _ m _ hkeys).2 (Or.inl rfl)
      · by_cases hp : port2 ∈ (lookupA ip2 m).getD []
        · rw [if_pos hp]
          exact hp
        · rw [if_neg hp]
          simp
    · by_cases hip : ip2 = ip
      · subst hip
        have hl : lookupA ip2 m = some ps := lookupA_of_mem_nodup ip2 ps m hps hkeys
        refine ⟨(if port ∈ (lookupA ip2 m).getD [] then (lookupA ip2 m).getD []
                 else (lookupA ip2 m).getD [] ++ [port]), ?_, ?_⟩
        · exact (mem_setA_iff ip2 _ m _ hkeys).2 (Or.inl rfl)
        · rw [hl]
          simp only [Option.getD_some]
          by_cases hp : port ∈ ps
          · rw [if_pos hp]
            exact hport
          · rw [if_neg hp]
            exact List.mem_append.2 (Or.inl hport)
      · exact ⟨ps, (mem_setA_iff ip _ m _ hkeys).2 (Or.inr ⟨hps, hip⟩), hport⟩

/-- Bucket contents after a burst: well-formed, and membership is exactly the events inserted (on top of the initial contents). -/
theorem bucketFold_wf_mem (events : List (String × Nat)) :
    ∀ m, bucketWF m →
      bucketWF (bucketFold events m)
      ∧ ∀ ip port, bucketMem (bucketFold events m) ip port
          ↔ (ip, port) ∈ events ∨ bucketMem m ip port := by
  induction events with
  | nil =>
    intro m hm
    exact ⟨hm, by simp [bucketFold]⟩
  | cons e rest ih =>
    intro m hm
    have hstep := bucketAdd_wf e.1 e.2 m hm
    have hfold : bucketFold (e :: rest) m = bucketFold rest (bucketAdd e.1 e.2 m) := rfl
    rw [hfold]
    obtain ⟨hwf, hmem⟩ := ih (bucketAdd e.1 e.2 m) hstep
    refine ⟨hwf, ?_⟩
    intro ip port
    rw [hmem ip port, bucketAdd_mem e.1 e.2 m hm ip port]
    constructor
    · rintro (h1 | ⟨h2, h3⟩ | h4)
      · exact Or.inl (List.mem_cons.2 (Or.inr h1))
      · subst h2; subst h3
        exact Or.inl (List.mem_cons.2 (Or.inl rfl))
      · exact Or.inr h4
    · rintro (h1 | h2)
      · rcases List.mem_cons.1 h1 with h3 | h3
        · exact Or.inr (Or.inl ⟨congrArg Prod.fst h3, congrArg Prod.snd h3⟩)
        · exact Or.inl h3
      · exact Or.inr (Or.inr h2)

/-- Re-setting the value already stored is the identity. -/
theorem setA_id_of_lookup {α β : Type} [DecidableEq α] (k : α) (v : β) (l : List (α × β))
    (h : lookupA k l = some v) : setA k v l = l := by
  induction l with
  | nil => simp [lookupA] at h
  | cons p rest ih =>
    obtain ⟨k1, v1⟩ := p
    simp only [lookupA] at h
    simp only [setA]
    by_cases h1 : k1 = k
    · rw [if_pos h1] at h
      rw [if_pos h1, h1, Option.some.inj h]
    · rw [if_neg h1] at h
      rw [if_neg h1, ih h]

/-- A failed lookup means the key is bound nowhere. -/
theorem lookupA_none_keys {α β : Type} [DecidableEq α] (k : α) (l : List (α × β))
    (h : lookupA k l = none) : ∀ p ∈ l, p.1 ≠ k := by
  induction l with
  | nil => simp
  | cons p rest ih =>
    obtain ⟨k1, v1⟩ := p
    simp only [lookupA] at h
    by_cases h1 : k1 = k
    · rw [if_pos h1] at h
      simp at h
    · rw [if_neg h1] at h
      intro q hq
      rcases List.mem_cons.1 hq with h2 | h2
      · rw [h2]
        exact h1
      · exact ih h q h2

/-- Deleting a key appended to a map without it restores the map. -/
theorem eraseA_append_fresh {α β : Type} [DecidableEq α] (k : α) (v : β) (l : List (α × β))
    (h : ∀ p ∈ l, p.1 ≠ k) : eraseA k (l ++ [(k, v)]) = l := by
  induction l with
  | nil => simp [eraseA]
  | cons p rest ih =>
    obtain ⟨k1, v1⟩ := p
    have h1 : k1 ≠ k := h (k1, v1) (by simp)
    simp only [List.cons_append, eraseA, List.append_eq]
    rw [if_neg h1, ih (fun q hq => h q (by simp [hq]))]

/-- Removing an element appended to a list without it restores the list. -/
theorem eraseFirst_append_fresh {α : Type} [DecidableEq α] (a : α) (l : List α)
    (h : a ∉ l) : eraseFirst a (l ++ [a]) = l := by
  induction l with
  | nil => simp [eraseFirst]
  | cons x rest ih =>
    have h1 : x ≠ a := by
      intro he
      exact h (by simp [he])
    simp only [List.cons_append, eraseFirst, List.append_eq]
    rw [if_neg h1, ih (fun he => h (by simp [he]))]

/-- While the bucket and its timer exist, a burst of adds only rewrites that bucket (and leaves the timers alone). -/
theorem connectFold_present (w t : String) (p : Protocol) (events : List (String × Nat)) :
    ∀ (st : AggState) (m : List (String × List Nat)),
      lookupA (makeGroupKey w (protoStr p) t) st.groupedClients = some m →
      makeGroupKey w (protoStr p) t ∈ st.groupTimers →
      connectFold w t p events st
        = ⟨setA (makeGroupKey w (protoStr p) t) (bucketFold events m) st.groupedClients,
           st.groupTimers⟩ := by
  induction events with
  | nil =>
    intro st m hl ht
    obtain ⟨gc, timers⟩ := st
    simp only [connectFold, List.foldl_nil, bucketFold]
    rw [setA_id_of_lookup _ _ _ hl]
  | cons e rest ih =>
    intro st m hl ht
    have hstep : addToConnectGroup w t e.1 e.2 p st
        = ⟨setA (makeGroupKey w (protoStr p) t) (bucketAdd e.1 e.2 m) st.groupedClients,
           st.groupTimers⟩ := by
      simp only [addToConnectGroup, hl, Option.getD_some]
      rw [if_pos ht]
    have hfold : connectFold w t p (e :: rest) st
        = connectFold w t p rest (addToConnectGroup w t e.1 e.2 p st) := rfl
    rw [hfold, hstep]
    rw [ih ⟨setA (makeGroupKey w (protoStr p) t) (bucketAdd e.1 e.2 m) st.groupedClients,
           st.groupTimers⟩ (bucketAdd e.1 e.2 m) (lookupA_setA_self _ _ _) ht]
    simp only [setA_setA]
    rfl

/-- A burst of adds starting from a state without the bucket creates it, fills it with the events, and arms the timer once. -/
theorem connectFold_fresh (w t : String) (p : Protocol) (e : String × Nat)
    (rest : List (String × Nat)) (st : AggState)
    (hfreshC : lookupA (makeGroupKey w (protoStr p) t) st.groupedClients = none)
    (hfreshT : makeGroupKey w (protoStr p) t ∉ st.groupTimers) :
    connectFold w t p (e :: rest) st
      = ⟨setA (makeGroupKey w (protoStr p) t) (bucketFold (e :: rest) []) st.groupedClients,
         st.groupTimers ++ [makeGroupKey w (protoStr p) t]⟩ := by
  have hstep : addToConnectGroup w t e.1 e.2 p st
      = ⟨setA (makeGroupKey w (protoStr p) t) (bucketAdd e.1 e.2 []) st.groupedClients,
         st.groupTimers ++ [makeGroupKey w (protoStr p) t]⟩ := by
    simp only [addToConnectGroup, hfreshC, Option.getD_none]
    rw [if_neg hfreshT]
  have hfold : connectFold w t p (e :: rest) st
      = connectFold w t p rest (addToConnectGroup w t e.1 e.2 p st) := rfl
  rw [hfold, hstep]
  rw [connectFold_present w t p rest
    ⟨setA (makeGroupKey w (protoStr p) t) (bucketAdd e.1 e.2 []) st.groupedClients,
     st.groupTimers ++ [makeGroupKey w (protoStr p) t]⟩ (bucketAdd e.1 e.2 [])
    (lookupA_setA_self _ _ _) (by simp)]
  simp only [setA_setA]
  rfl

/-- C4: inserting one or more connect events for the same (webhook, protocol,
    target) within one debounce window — all adds happen before the single
    armed timer fires — produces exactly one flushed webhook: exactly one
    timer is armed; the flush dispatches one grouped webhook whose content is
    precisely the union over the events of client ip to its set of ports,
    each port list sorted ascending and duplicate-free; the flush removes the
    bucket and cancels its timer; a second flush dispatches nothing; and any
    insertion arriving after the flush starts a fresh singleton bucket with a
    fresh (single) timer. -/
theorem aggregator_debounce (w t : String) (p : Protocol) (e0 : String × Nat)
    (rest : List (String × Nat)) (st : AggState)
    (hfreshC : lookupA (makeGroupKey w (protoStr p) t) st.groupedClients = none)
    (hfreshT : makeGroupKey w (protoStr p) t ∉ st.groupTimers) :
    (connectFold w t p (e0 :: rest) st).groupTimers.count (makeGroupKey w (protoStr p) t) = 1
    ∧ (∃ g, (flushGroup (makeGroupKey w (protoStr p) t) (connectFold w t p (e0 :: rest) st)).1
          = some g
        ∧ (∀ ip ports, (ip, ports) ∈ g.groups → List.Sorted (· ≤ ·) ports ∧ ports.Nodup)
        ∧ (∀ ip port, (∃ ports, (ip, ports) ∈ g.groups ∧ port ∈ ports) ↔ (ip, port) ∈ e0 :: rest)
        ∧ (g.groups.map Prod.fst).Nodup)
    ∧ lookupA (makeGroupKey w (protoStr p) t)
        ((flushGroup (makeGroupKey w (protoStr p) t) (connectFold w t p (e0 :: rest) st)).2).groupedClients = none
    ∧ makeGroupKey w (protoStr p) t
        ∉ ((flushGroup (makeGroupKey w (protoStr p) t) (connectFold w t p (e0 :: rest) st)).2).groupTimers
    ∧ (flushGroup (makeGroupKey w (protoStr p) t)
        ((flushGroup (makeGroupKey w (protoStr p) t) (connectFold w t p (e0 :: rest) st)).2)).1 = none
    ∧ ∀ ip2 port2,
        lookupA (makeGroupKey w (protoStr p) t)
          (addToConnectGroup w t ip2 port2 p
            ((flushGroup (makeGroupKey w (protoStr p) t) (connectFold w t p (e0 :: rest) st)).2)).groupedClients
          = some [(ip2, [port2])]
        ∧ (addToConnectGroup w t ip2 port2 p
            ((flushGroup (makeGroupKey w (protoStr p) t) (connectFold w t p (e0 :: rest) st)).2)).groupTimers.count
            (makeGroupKey w (protoStr p) t) = 1 := by
  have hsteps := connectFold_fresh w t p e0 rest st hfreshC hfreshT
  have hlook : lookupA (makeGroupKey w (protoStr p) t)
      (connectFold w t p (e0 :: rest) st).groupedClients
      = some (bucketFold (e0 :: rest) []) := by
    rw [hsteps]
    exact lookupA_setA_self _ _ _
  have htimers : (connectFold w t p (e0 :: rest) st).groupTimers
      = st.groupTimers ++ [makeGroupKey w (protoStr p) t] := by
    rw [hsteps]
  have hcount1 : (connectFold w t p (e0 :: rest) st).groupTimers.count
      (makeGroupKey w (protoStr p) t) = 1 := by
    rw [htimers, List.count_append, List.count_eq_zero.2 hfreshT]
    simp
  have hflush : flushGroup (makeGroupKey w (protoStr p) t) (connectFold w t p (e0 :: rest) st)
      = (some ⟨String.mk ((splitCC (makeGroupKey w (protoStr p) t).data).getD 0 []),
              String.mk ((splitCC (makeGroupKey w (protoStr p) t).data).getD 1 []),
              String.mk (joinCC ((splitCC (makeGroupKey w (protoStr p) t).data).drop 2)),
              (bucketFold (e0 :: rest) []).map (fun e => (e.1, sortNat e.2))⟩,
         ⟨eraseA (makeGroupKey w (protoStr p) t)
            (connectFold w t p (e0 :: rest) st).groupedClients,
          eraseFirst (makeGroupKey w (protoStr p) t)
            (connectFold w t p (e0 :: rest) st).groupTimers⟩) := by
    simp only [flushGroup, hlook]
  have hgc2 : eraseA (makeGroupKey w (protoStr p) t)
      (connectFold w t p (e0 :: rest) st).groupedClients = st.groupedClients := by
    have h1 : (connectFold w t p (e0 :: rest) st).groupedClients
        = setA (makeGroupKey w (protoStr p) t) (bucketFold (e0 :: rest) []) st.groupedClients := by
      rw [hsteps]
    rw [h1, setA_fresh _ _ _ (lookupA_none_keys _ _ hfreshC),
        eraseA_append_fresh _ _ _ (lookupA_none_keys _ _ hfreshC)]
  have htimers2 : eraseFirst (makeGroupKey w (protoStr p) t)
      (connectFold w t p (e0 :: rest) st).groupTimers = st.groupTimers := by
    rw [htimers, eraseFirst_append_fresh _ _ hfreshT]
  have hwfmem := bucketFold_wf_mem (e0 :: rest) []
    ⟨by simp, by simp⟩
  obtain ⟨hwf, hmem⟩ := hwfmem
  refine ⟨hcount1, ?_, ?_, ?_, ?_, ?_⟩
  · refine ⟨_, by rw [hflush], ?_, ?_, ?_⟩
    · intro ip ports hin
      obtain ⟨e, he, heq⟩ := List.mem_map.1 hin
      rw [Prod.mk.injEq] at heq
      obtain ⟨hip, hps⟩ := heq
      subst hps
      exact ⟨sortNat_sorted e.2, ((sortNat_perm e.2).nodup_iff).2 (hwf.2 e he)⟩
    · intro ip port
      constructor
      · rintro ⟨ports, hin, hp⟩
        obtain ⟨e, he, heq⟩ := List.mem_map.1 hin
        rw [Prod.mk.injEq] at heq
        obtain ⟨hip, hps⟩ := heq
        subst hip
        subst hps
        have hmm : bucketMem (bucketFold (e0 :: rest) []) e.1 port :=
          ⟨e.2, by simpa using he, (sortNat_perm e.2).mem_iff.1 hp⟩
        rcases (hmem e.1 port).1 hmm with h1 | h1
        · exact h1
        · simp [bucketMem] at h1
      · intro hin
        have hmm : bucketMem (bucketFold (e0 :: rest) []) ip port :=
          (hmem ip port).2 (Or.inl hin)
        obtain ⟨ps, hps, hp⟩ := hmm
        refine ⟨sortNat ps, List.mem_map.2 ⟨(ip, ps), hps, rfl⟩, (sortNat_perm ps).mem_iff.2 hp⟩
    · have hmm : ((bucketFold (e0 :: rest) []).map (fun e => (e.1, sortNat e.2))).map Prod.fst
          = (bucketFold (e0 :: rest) []).map Prod.fst := by
        rw [List.map_map]
        rfl
      rw [hmm]
      exact hwf.1
  · rw [hflush]
    simp only
    rw [hgc2]
    exact hfreshC
  · rw [hflush]
    simp only
    rw [htimers2]
    exact hfreshT
  · rw [hflush]
    simp only
    have hlook2 : lookupA (makeGroupKey w (protoStr p) t) st.groupedClients = none := hfreshC
    simp only [flushGroup, hgc2, htimers2, hlook2]
  · intro ip2 port2
    rw [hflush]
    simp only
    have hstep : addToConnectGroup w t ip2 port2 p
        ⟨eraseA (makeGroupKey w (protoStr p) t) (connectFold w t p (e0 :: rest) st).groupedClients,
         eraseFirst (makeGroupKey w (protoStr p) t) (connectFold w t p (e0 :: rest) st).groupTimers⟩
        = ⟨setA (makeGroupKey w (protoStr p) t) [(ip2, [port2])] st.groupedClients,
           st.groupTimers ++ [makeGroupKey w (protoStr p) t]⟩ := by
      simp only [addToConnectGroup, hgc2, htimers2, hfreshC, Option.getD_none]
      rw [if_neg hfreshT]
      have hb : bucketAdd ip2 port2 [] = [(ip2, [port2])] := by
        simp [bucketAdd, lookupA, setA]
      rw [hb]
    rw [hstep]
    constructor
    · exact lookupA_setA_self _ _ _
    · simp only
      rw [List.count_append, List.count_eq_zero.2 hfreshT]
      simp

/-- Witness for `aggregator_debounce` on a concrete burst. -/
theorem aggregator_debounce_witness :
    (connectFold "https://example.test/hook" "127.0.0.1:9000" Protocol.TCP
        [("1.1.1.1", 2), ("1.1.1.1", 1), ("2.2.2.2", 1)] emptyAgg).groupTimers.count
      (makeGroupKey "https://example.test/hook" (protoStr Protocol.TCP) "127.0.0.1:9000") = 1 :=
  (aggregator_debounce "https://example.test/hook" "127.0.0.1:9000" Protocol.TCP
    ("1.1.1.1", 2) [("1.1.1.1", 1), ("2.2.2.2", 1)] emptyAgg (by decide) (by decide)).1

/-! ### Claim C3 — chain extraction (amended) -/


/-- A `Buffer.subarray` read within the prefix ignores appended bytes. -/
theorem subarray_append (b tail : List Nat) (m n : Nat) (h : m + n ≤ b.length) :
    ((b ++ tail).drop m).take n = (b.drop m).take n := by
  rw [List.drop_append_of_le_length (by omega)]
  rw [List.take_append_of_le_length (by simp; omega)]

/-- Inversion of a successful parse: the signature matched, the buffer covers the advertised header length, and `headerLength` is `16 +` the advertised address length. -/
theorem parse_inv (b : List Nat) (h : ProxyV2Header) (hb : parseProxyV2 b = some h) :
    isProxyV2 b = true ∧ 16 ≤ b.length ∧ 16 + readUInt16BE b 14 ≤ b.length
      ∧ h.headerLength = 16 + readUInt16BE b 14 := by
  unfold parseProxyV2 at hb
  by_cases hsig : isProxyV2 b = true
  · rw [if_neg (not_not_intro hsig)] at hb
    by_cases hlen : b.length < 16
    · rw [if_pos hlen] at hb
      exact absurd hb (by simp)
    · rw [if_neg hlen] at hb
      by_cases hlen2 : b.length < 16 + readUInt16BE b 14
      · rw [if_pos hlen2] at hb
        exact absurd hb (by simp)
      · rw [if_neg hlen2] at hb
        refine ⟨hsig, by omega, by omega, ?_⟩
        split_ifs at hb <;>
          · rw [← Option.some.inj hb]
  · rw [if_pos (by simpa using hsig)] at hb
    exact absurd hb (by simp)

set_option maxHeartbeats 1600000 in
set_option maxRecDepth 4000 in
/-- `parseProxyV2` reads only the first `headerLength` bytes: appending a tail
    to a buffer that is exactly one header changes nothing. -/
theorem parse_append (b tail : List Nat) (hsig : isProxyV2 b = true) (hlen : 16 ≤ b.length)
    (hAL : b.length = 16 + readUInt16BE b 14) :
    parseProxyV2 (b ++ tail) = parseProxyV2 b := by
  have hg : ∀ i, i < b.length → (b ++ tail).getD i 0 = b.getD i 0 :=
    fun i hi => List.getD_append b tail 0 i hi
  have hr : ∀ i, i + 1 < b.length → readUInt16BE (b ++ tail) i = readUInt16BE b i := by
    intro i hi
    unfold readUInt16BE
    rw [hg i (by omega), hg (i + 1) hi]
  have hsig2 : isProxyV2 (b ++ tail) = true := by
    unfold isProxyV2 at hsig ⊢
    by_cases h12 : b.length < PROXY_V2_SIGNATURE.length
    · rw [if_pos h12] at hsig
      exact absurd hsig (by simp)
    · rw [if_neg h12] at hsig
      rw [if_neg (by simp only [List.length_append]; omega)]
      rw [List.take_append_of_le_length (by omega)]
      exact hsig
  unfold parseProxyV2
  rw [if_neg (not_not_intro hsig2), if_neg (not_not_intro hsig)]
  rw [if_neg (show ¬((b ++ tail).length < 16) by simp only [List.length_append]; omega)]
  rw [if_neg (show ¬(b.length < 16) by omega)]
  rw [hr 14 (by omega), hg 12 (by omega), hg 13 (by omega)]
  rw [if_neg (show ¬((b ++ tail).length < 16 + readUInt16BE b 14) by
        simp only [List.length_append]; omega)]
  rw [if_neg (show ¬(b.length < 16 + readUInt16BE b 14) by omega)]
  split_ifs <;>
    first
      | rfl
      | (rw [hg 16 (by omega), hg 17 (by omega), hg 18 (by omega), hg 19 (by omega),
             hg 20 (by omega), hg 21 (by omega), hg 22 (by omega), hg 23 (by omega),
             hr 24 (by omega), hr 26 (by omega)])
      | (rw [subarray_append b tail 16 16 (by omega), subarray_append b tail 32 16 (by omega),
             hr 48 (by omega), hr 50 (by omega)])

/-- The chain loop over a concatenation of encoded headers followed by residual bytes decodes the headers in order, bounded by the remaining iteration budget, and stops exactly at the residual. -/
theorem parseChainAux_spec (B : List Nat) (hbs : List (List Nat × ProxyV2Header))
    (henc : ∀ q ∈ hbs, parseProxyV2 q.1 = some q.2 ∧ q.1.length = q.2.headerLength) :
    ∀ (fuel : Nat) (C : List Nat), (hbs.length < fuel → parseProxyV2 B = none) →
      parseChainAux (C ++ (hbs.map Prod.fst).flatten ++ B) C.length fuel
        = ((hbs.take fuel).map Prod.snd,
           C.length + (((hbs.take fuel).map Prod.fst).flatten).length) := by
  induction hbs with
  | nil =>
    intro fuel C hB
    cases fuel with
    | zero => simp [parseChainAux]
    | succ fuel =>
      have hB2 := hB (by simp)
      simp only [List.map_nil, List.flatten_nil, List.append_nil, List.take_nil]
      simp only [parseChainAux]
      by_cases hoff : C.length < (C ++ B).length
      · rw [if_pos hoff]
        rw [List.drop_left]
        by_cases hsigB : isProxyV2 B
        · rw [if_pos hsigB, hB2]
          simp
        · rw [if_neg hsigB]
          simp
      · rw [if_neg hoff]
        simp
  | cons q rest ih =>
    intro fuel C hB
    obtain ⟨hq, hqlen⟩ := henc q (by simp)
    have hinv := parse_inv q.1 q.2 hq
    cases fuel with
    | zero => simp [parseChainAux]
    | succ fuel =>
      have hdata : C ++ ((q :: rest).map Prod.fst).flatten ++ B
          = C ++ (q.1 ++ ((rest.map Prod.fst).flatten ++ B)) := by
        simp [List.append_assoc]
      simp only [parseChainAux]
      rw [if_pos (by
        simp only [hdata, List.length_append]
        have := hinv.2.1
        omega)]
      have hdrop : (C ++ ((q :: rest).map Prod.fst).flatten ++ B).drop C.length
          = q.1 ++ ((rest.map Prod.fst).flatten ++ B) := by
        rw [hdata, List.drop_left]
      rw [hdrop]
      have hparse : parseProxyV2 (q.1 ++ ((rest.map Prod.fst).flatten ++ B)) = some q.2 := by
        rw [parse_append q.1 _ hinv.1 hinv.2.1 (by omega)]
        exact hq
      have hsig : isProxyV2 (q.1 ++ ((rest.map Prod.fst).flatten ++ B)) = true := by
        by_cases hs : isProxyV2 (q.1 ++ ((rest.map Prod.fst).flatten ++ B)) = true
        · exact hs
        · exfalso
          unfold parseProxyV2 at hparse
          rw [if_pos (by simpa using hs)] at hparse
          exact absurd hparse (by simp)
      rw [if_pos (by rw [hsig])]
      simp only [hparse]
      have hC2 : C.length + q.2.headerLength = (C ++ q.1).length := by
        simp [List.length_append, hqlen]
      have ih2 := ih (fun r hr => henc r (by simp [hr])) fuel (C ++ q.1)
        (fun hfl => hB (by simp; omega))
      have hdata2 : C ++ ((q :: rest).map Prod.fst).flatten ++ B
          = (C ++ q.1) ++ (rest.map Prod.fst).flatten ++ B := by
        simp [List.append_assoc]
      rw [hC2, hdata2, ih2]
      simp only [List.take_succ_cons, List.map_cons, List.flatten_cons, List.length_append,
                 Nat.add_assoc]

/-- C3 (amended): for any headers H1..Hn (as encoded bytes with their decoded
    forms) and any byte string B that does not itself begin with a parseable
    PPv2 header, the chain parse of `encode(H1) ++ ... ++ encode(Hn) ++ B`
    returns the first `min n 32` decoded headers, with the residual payload
    equal to B when `n ≤ 32` and beginning at header 33 when `n > 32`.
    (Without the proviso on B the parser keeps decoding into B, see the
    counterexample.) -/
theorem chain_extraction_amended (hbs : List (List Nat × ProxyV2Header)) (B : List Nat)
    (henc : ∀ q ∈ hbs, parseProxyV2 q.1 = some q.2 ∧ q.1.length = q.2.headerLength)
    (hB : hbs.length < 32 → parseProxyV2 B = none) :
    parseProxyV2Chain ((hbs.map Prod.fst).flatten ++ B)
      = ((hbs.take 32).map Prod.snd, ((hbs.drop 32).map Prod.fst).flatten ++ B) := by
  have hspec := parseChainAux_spec B hbs henc 32 [] hB
  simp only [List.nil_append, List.length_nil, Nat.zero_add] at hspec
  unfold parseProxyV2Chain
  simp only [hspec]
  have hsplit : (hbs.map Prod.fst).flatten
      = ((hbs.take 32).map Prod.fst).flatten ++ ((hbs.drop 32).map Prod.fst).flatten := by
    rw [← List.flatten_append, ← List.map_append, List.take_append_drop]
  have hpayload : ((hbs.map Prod.fst).flatten ++ B).drop
        (((hbs.take 32).map Prod.fst).flatten).length
      = ((hbs.drop 32).map Prod.fst).flatten ++ B := by
    rw [hsplit, List.append_assoc, List.drop_left]
  rw [hpayload]

set_option maxRecDepth 4000 in
/-- Witness for `chain_extraction_amended`: one encoded header followed by the
    bytes `[9, 9]`. -/
theorem chain_extraction_amended_witness :
    parseProxyV2Chain (((([(c3HeaderBytes, c3Header)]).map Prod.fst).flatten) ++ [9, 9])
      = ((([(c3HeaderBytes, c3Header)]).take 32).map Prod.snd,
         ((([(c3HeaderBytes, c3Header)]).drop 32).map Prod.fst).flatten ++ [9, 9]) :=
  chain_extraction_amended [(c3HeaderBytes, c3Header)] [9, 9]
    (by intro q hq; simp at hq; rw [hq]; exact ⟨by decide, by decide⟩)
    (fun _ => by decide)

/-! ### Claim C2: numeral, split and codec lemmas -/

theorem digitChar_isDigit (d : Nat) (hd : d < 10) : (digitChar d).isDigit = true := by
  interval_cases d <;> decide

theorem digitChar_val (d : Nat) (hd : d < 10) : (digitChar d).toNat - 48 = d := by
  interval_cases d <;> decide

theorem digitChar_ne_zero (d : Nat) (hd : 0 < d) (hd2 : d < 10) : digitChar d ≠ '0' := by
  interval_cases d <;> decide

theorem hexChar_isHex (d : Nat) (hd : d < 16) : isHexDigit (hexChar d) = true := by
  interval_cases d <;> decide

theorem hexChar_val (d : Nat) (hd : d < 16) : hexDigitVal (hexChar d) = d := by
  interval_cases d <;> decide

theorem isDigit_ne_colon (c : Char) (h : c.isDigit = true) : c ≠ ':' := by
  intro he
  subst he
  exact absurd h (by decide)

theorem isDigit_ne_dot (c : Char) (h : c.isDigit = true) : c ≠ '.' := by
  intro he
  subst he
  exact absurd h (by decide)

theorem isHex_ne_colon (c : Char) (h : isHexDigit c = true) : c ≠ ':' := by
  intro he
  subst he
  exact absurd h (by decide)

theorem toDigitsAux_mem (b : Nat) (digit : Nat → Char) (hb : 0 < b) :
    ∀ (fuel n : Nat), ∀ c ∈ toDigitsAux b digit fuel n, ∃ d, d < b ∧ c = digit d := by
  intro fuel
  induction fuel with
  | zero => intro n c hc; simp [toDigitsAux] at hc
  | succ fuel ih =>
    intro n c hc
    simp only [toDigitsAux] at hc
    by_cases h : n < b
    · rw [if_pos h] at hc
      simp at hc
      exact ⟨n, h, hc⟩
    · rw [if_neg h] at hc
      rcases List.mem_append.1 hc with h2 | h2
      · exact ih (n / b) c h2
      · simp at h2
        exact ⟨n % b, Nat.mod_lt n hb, h2⟩

theorem toDigitsAux_ne_nil (b : Nat) (digit : Nat → Char) (fuel n : Nat) (hf : 0 < fuel) :
    toDigitsAux b digit fuel n ≠ [] := by
  cases fuel with
  | zero => omega
  | succ fuel =>
    simp only [toDigitsAux]
    by_cases h : n < b
    · rw [if_pos h]
      simp
    · rw [if_neg h]
      simp

theorem toDigitsAux_val (b : Nat) (digit : Nat → Char) (dval : Char → Nat)
    (hdig : ∀ d, d < b → dval (digit d) = d) (hb : 2 ≤ b) :
    ∀ (fuel n : Nat), n < b ^ fuel →
      (toDigitsAux b digit fuel n).foldl (fun a c => a * b + dval c) 0 = n := by
  intro fuel
  induction fuel with
  | zero =>
    intro n hn
    simp [pow_zero] at hn
    simp [toDigitsAux, hn]
  | succ fuel ih =>
    intro n hn
    simp only [toDigitsAux]
    by_cases h : n < b
    · rw [if_pos h]
      simp [hdig n h]
    · rw [if_neg h]
      rw [List.foldl_append]
      have hdiv : n / b < b ^ fuel := by
        rw [Nat.div_lt_iff_lt_mul (by omega)]
        rw [pow_succ] at hn
        exact hn
      rw [ih (n / b) hdiv]
      simp only [List.foldl_cons, List.foldl_nil]
      rw [hdig (n % b) (Nat.mod_lt n (by omega))]
      rw [Nat.mul_comm]
      exact Nat.div_add_mod n b

theorem toDigitsAux_head (b : Nat) (digit : Nat → Char) (hb : 2 ≤ b) :
    ∀ (fuel n : Nat), 0 < n → n < b ^ fuel →
      ∃ d, 0 < d ∧ d < b ∧ (toDigitsAux b digit fuel n).head? = some (digit d) := by
  intro fuel
  induction fuel with
  | zero => intro n hn hlt; simp [pow_zero] at hlt; omega
  | succ fuel ih =>
    intro n hn hlt
    simp only [toDigitsAux]
    by_cases h : n < b
    · rw [if_pos h]
      exact ⟨n, hn, h, rfl⟩
    · rw [if_neg h]
      have hdiv : n / b < b ^ fuel := by
        rw [Nat.div_lt_iff_lt_mul (by omega)]
        rw [pow_succ] at hlt
        exact hlt
      have hpos : 0 < n / b := Nat.le_div_iff_mul_le (by omega) |>.2 (by omega)
      obtain ⟨d, hd1, hd2, hd3⟩ := ih (n / b) hpos hdiv
      refine ⟨d, hd1, hd2, ?_⟩
      rw [List.head?_append_of_ne_nil]
      · exact hd3
      · cases fuel with
        | zero => simp [pow_zero] at hdiv; omega
        | succ f2 => exact toDigitsAux_ne_nil b digit (f2 + 1) (n / b) (by omega)

theorem nat_lt_pow_self (b n : Nat) (hb : 2 ≤ b) : n < b ^ (n + 1) := by
  have h1 : n < 2 ^ (n + 1) := by
    have := Nat.lt_two_pow n
    have h2 : (2 : Nat) ^ n ≤ 2 ^ (n + 1) := Nat.pow_le_pow_right (by omega) (by omega)
    omega
  have h2 : (2 : Nat) ^ (n + 1) ≤ b ^ (n + 1) := Nat.pow_le_pow_left hb (n + 1)
  omega

theorem natToDec_all_digits (n : Nat) : ∀ c ∈ natToDec n, c.isDigit = true := by
  intro c hc
  obtain ⟨d, hd, he⟩ := toDigitsAux_mem 10 digitChar (by omega) (n + 1) n c hc
  rw [he]
  exact digitChar_isDigit d hd

theorem natToDec_ne_nil (n : Nat) : natToDec n ≠ [] :=
  toDigitsAux_ne_nil 10 digitChar (n + 1) n (by omega)

theorem decVal_natToDec (n : Nat) : decVal (natToDec n) = n := by
  have h := toDigitsAux_val 10 digitChar (fun c => c.toNat - 48) digitChar_val (by omega)
    (n + 1) n (nat_lt_pow_self 10 n (by omega))
  exact h

theorem jsNumber_natToDec (n : Nat) : jsNumber (natToDec n) = some n := by
  unfold jsNumber
  rw [if_neg (natToDec_ne_nil n)]
  rw [if_pos (by
    rw [List.all_eq_true]
    intro c hc
    exact natToDec_all_digits n c hc)]
  rw [decVal_natToDec]

theorem natToHex_all_hex (n : Nat) : ∀ c ∈ natToHex n, isHexDigit c = true := by
  intro c hc
  obtain ⟨d, hd, he⟩ := toDigitsAux_mem 16 hexChar (by omega) (n + 1) n c hc
  rw [he]
  exact hexChar_isHex d hd

theorem natToHex_ne_nil (n : Nat) : natToHex n ≠ [] :=
  toDigitsAux_ne_nil 16 hexChar (n + 1) n (by omega)

theorem hexVal_natToHex (n : Nat) : hexVal (natToHex n) = n := by
  have h := toDigitsAux_val 16 hexChar hexDigitVal hexChar_val (by omega)
    (n + 1) n (nat_lt_pow_self 16 n (by omega))
  exact h

theorem jsParseIntHex_natToHex (n : Nat) : jsParseIntHex (natToHex n) = some n := by
  unfold jsParseIntHex
  have htake : (natToHex n).takeWhile isHexDigit = natToHex n := by
    rw [List.takeWhile_eq_self_iff]
    intro c hc
    exact natToHex_all_hex n c hc
  rw [htake]
  rw [if_neg (natToHex_ne_nil n)]
  rw [hexVal_natToHex]

theorem containsChar_eq_false (c : Char) (l : List Char) :
    containsChar c l = false ↔ ∀ x ∈ l, x ≠ c := by
  induction l with
  | nil => simp [containsChar]
  | cons x rest ih =>
    simp only [containsChar, Bool.or_eq_false_iff, ih, List.mem_cons, decide_eq_false_iff_not]
    constructor
    · rintro ⟨h1, h2⟩ y hy
      rcases hy with rfl | hy
      · exact h1
      · exact h2 y hy
    · intro h
      exact ⟨h x (Or.inl rfl), fun y hy => h y (Or.inr hy)⟩

theorem splitChar_ne_nil (sep : Char) (l : List Char) : splitChar sep l ≠ [] := by
  cases l with
  | nil => simp [splitChar]
  | cons c rest =>
    simp only [splitChar]
    cases h : splitChar sep rest with
    | nil => simp
    | cons p ps =>
      by_cases hc : c = sep <;> simp [hc]

theorem splitChar_no_sep (sep : Char) (l : List Char)
    (h : ∀ x ∈ l, x ≠ sep) : splitChar sep l = [l] := by
  induction l with
  | nil => rfl
  | cons c rest ih =>
    have hrest : splitChar sep rest = [rest] := ih (fun x hx => h x (List.mem_cons_of_mem c hx))
    simp only [splitChar, hrest]
    simp [h c (List.mem_cons_self c rest)]

theorem splitChar_sep (sep : Char) (xs rest : List Char)
    (h : ∀ x ∈ xs, x ≠ sep) :
    splitChar sep (xs ++ sep :: rest) = xs :: splitChar sep rest := by
  induction xs with
  | nil =>
    simp only [List.nil_append, splitChar]
    cases hs : splitChar sep rest with
    | nil => exact absurd hs (splitChar_ne_nil sep rest)
    | cons p ps => simp
  | cons x xs ih =>
    have hih := ih (fun y hy => h y (List.mem_cons_of_mem x hy))
    simp only [List.cons_append, splitChar, List.append_eq]
    rw [hih]
    simp [h x (List.mem_cons_self x xs)]

theorem startsWithL_mapped_false (x : Char) (rest : List Char) (hx : x ≠ ':') :
    startsWithL ("::ffff:".data) (x :: rest) = false := by
  have h : "::ffff:".data = ':' :: ':' :: 'f' :: 'f' :: 'f' :: 'f' :: ':' :: [] := rfl
  rw [h]
  simp only [startsWithL, Bool.and_eq_false_iff]
  left
  exact decide_eq_false (fun he => hx he.symm)

theorem normalizeMappedIPv4_eq_self (ip : String) (x : Char) (rest : List Char)
    (hdata : ip.data = x :: rest) (hx : x ≠ ':') : normalizeMappedIPv4 ip = ip := by
  unfold normalizeMappedIPv4
  rw [hdata, startsWithL_mapped_false x rest hx]
  simp

theorem natToDec_head_digit (n : Nat) :
    ∃ x rest, natToDec n = x :: rest ∧ x.isDigit = true := by
  cases hd : natToDec n with
  | nil => exact absurd hd (natToDec_ne_nil n)
  | cons x rest =>
    refine ⟨x, rest, rfl, ?_⟩
    exact natToDec_all_digits n x (hd ▸ List.mem_cons_self x rest)

theorem natToHex_head_hex (n : Nat) :
    ∃ x rest, natToHex n = x :: rest ∧ isHexDigit x = true := by
  cases hd : natToHex n with
  | nil => exact absurd hd (natToHex_ne_nil n)
  | cons x rest =>
    refine ⟨x, rest, rfl, ?_⟩
    exact natToHex_all_hex n x (hd ▸ List.mem_cons_self x rest)

theorem ipv4Str_data (a b c d : Nat) :
    (ipv4Str a b c d).data
      = natToDec a ++ '.' :: (natToDec b ++ '.' :: (natToDec c ++ '.' :: natToDec d)) := by
  simp [ipv4Str, List.append_assoc]

theorem splitChar_dot_ipv4 (a b c d : Nat) :
    splitChar '.' (ipv4Str a b c d).data = [natToDec a, natToDec b, natToDec c, natToDec d] := by
  rw [ipv4Str_data]
  rw [splitChar_sep '.' _ _ (fun x hx => isDigit_ne_dot x (natToDec_all_digits a x hx))]
  rw [splitChar_sep '.' _ _ (fun x hx => isDigit_ne_dot x (natToDec_all_digits b x hx))]
  rw [splitChar_sep '.' _ _ (fun x hx => isDigit_ne_dot x (natToDec_all_digits c x hx))]
  rw [splitChar_no_sep '.' _ (fun x hx => isDigit_ne_dot x (natToDec_all_digits d x hx))]

theorem contains_colon_ipv4 (a b c d : Nat) :
    containsChar ':' (ipv4Str a b c d).data = false := by
  rw [containsChar_eq_false, ipv4Str_data]
  intro x hx
  simp only [List.mem_append, List.mem_cons] at hx
  rcases hx with h | h | h | h | h | h | h
  · exact isDigit_ne_colon x (natToDec_all_digits a x h)
  · subst h; decide
  · exact isDigit_ne_colon x (natToDec_all_digits b x h)
  · subst h; decide
  · exact isDigit_ne_colon x (natToDec_all_digits c x h)
  · subst h; decide
  · exact isDigit_ne_colon x (natToDec_all_digits d x h)

theorem normalize_ipv4 (a b c d : Nat) :
    normalizeMappedIPv4 (ipv4Str a b c d) = ipv4Str a b c d := by
  obtain ⟨x, rest, hx, hdig⟩ := natToDec_head_digit a
  exact normalizeMappedIPv4_eq_self _ x (rest ++ '.' :: (natToDec b ++ '.' :: (natToDec c ++ '.' :: natToDec d)))
    (by rw [ipv4Str_data, hx]; simp) (isDigit_ne_colon x hdig)

theorem generate_ipv4 (a b c d a2 b2 c2 d2 sport dport : Nat)
    (ha : a ≤ 255) (hb : b ≤ 255) (hc : c ≤ 255) (hd : d ≤ 255)
    (ha2 : a2 ≤ 255) (hb2 : b2 ≤ 255) (hc2 : c2 ≤ 255) (hd2 : d2 ≤ 255)
    (hsp : sport < 65536) (hdp : dport < 65536) (isUDP : Bool) :
    generateProxyProtocolV2Header (ipv4Str a b c d) sport (ipv4Str a2 b2 c2 d2) dport isUDP
      = some (13 :: 10 :: 13 :: 10 :: 0 :: 13 :: 10 :: 81 :: 85 :: 73 :: 84 :: 10 ::
          33 :: (if isUDP then 18 else 17) :: 0 :: 12 ::
          a :: b :: c :: d :: a2 :: b2 :: c2 :: d2 ::
          sport / 256 :: sport % 256 :: dport / 256 :: dport % 256 :: []) := by
  cases isUDP <;>
  simp [generateProxyProtocolV2Header, normalize_ipv4, contains_colon_ipv4,
    splitChar_dot_ipv4, jsNumber_natToDec, jsIdxOr0, writeUInt16BE, hsp, hdp,
    Nat.mod_eq_of_lt (show a < 256 by omega), Nat.mod_eq_of_lt (show b < 256 by omega),
    Nat.mod_eq_of_lt (show c < 256 by omega), Nat.mod_eq_of_lt (show d < 256 by omega),
    Nat.mod_eq_of_lt (show a2 < 256 by omega), Nat.mod_eq_of_lt (show b2 < 256 by omega),
    Nat.mod_eq_of_lt (show c2 < 256 by omega), Nat.mod_eq_of_lt (show d2 < 256 by omega),
    PROXY_V2_SIGNATURE]

theorem parse_ipv4 (a b c d a2 b2 c2 d2 sport dport : Nat) (isUDP : Bool) :
    parseProxyV2 (13 :: 10 :: 13 :: 10 :: 0 :: 13 :: 10 :: 81 :: 85 :: 73 :: 84 :: 10 ::
          33 :: (if isUDP then 18 else 17) :: 0 :: 12 ::
          a :: b :: c :: d :: a2 :: b2 :: c2 :: d2 ::
          sport / 256 :: sport % 256 :: dport / 256 :: dport % 256 :: [])
      = some { version := 2, command := PPCommand.PROXY, family := PPFamily.INET,
               protocol := if isUDP then PPTransport.DGRAM else PPTransport.STREAM,
               sourceAddress := ipv4Str a b c d, destAddress := ipv4Str a2 b2 c2 d2,
               sourcePort := sport, destPort := dport, headerLength := 28 } := by
  cases isUDP <;>
  · simp only [if_true, if_false, Bool.false_eq_true]
    simp [parseProxyV2, isProxyV2, PROXY_V2_SIGNATURE, readUInt16BE, ipv4Str, List.getD]
    simp only [show ((33:Nat) &&& 240) >>> 4 = 2 by rfl, show ((33:Nat) &&& 15) = 1 by rfl,
      show ((17:Nat) &&& 240) >>> 4 = 1 by rfl, show ((17:Nat) &&& 15) = 1 by rfl,
      show ((18:Nat) &&& 240) >>> 4 = 1 by rfl, show ((18:Nat) &&& 15) = 2 by rfl]
    simp
    refine ⟨?_, ?_⟩ <;> omega

theorem containsChar_append_self (c : Char) (xs rest : List Char) :
    containsChar c (xs ++ c :: rest) = true := by
  induction xs with
  | nil => simp [containsChar]
  | cons x xs ih => simp [containsChar, ih]

theorem hasCC_append_left (xs l : List Char) (h : ∀ x ∈ xs, x ≠ ':') :
    hasCC (xs ++ l) = hasCC l := by
  induction xs with
  | nil => rfl
  | cons x xs ih =>
    have hx : x ≠ ':' := h x (List.mem_cons_self x xs)
    have hih := ih (fun y hy => h y (List.mem_cons_of_mem x hy))
    cases xs with
    | nil =>
      cases l with
      | nil => rfl
      | cons y ys => simp [hasCC, hx]
    | cons x2 xs2 =>
      simp only [List.cons_append, hasCC] at hih ⊢
      simp [hx, hih]

theorem hasCC_single (p : List Char) (h : ∀ x ∈ p, x ≠ ':') : hasCC p = false := by
  induction p with
  | nil => rfl
  | cons c rest ih =>
    cases rest with
    | nil => rfl
    | cons c2 r2 =>
      simp only [hasCC]
      have hc : c ≠ ':' := h c (List.mem_cons_self c _)
      have hih := ih (fun y hy => h y (List.mem_cons_of_mem c hy))
      simp [hc, hih]

theorem hasCC_joinChar (parts : List (List Char))
    (h : ∀ p ∈ parts, p ≠ [] ∧ ∀ x ∈ p, x ≠ ':') :
    hasCC (joinChar ':' parts) = false := by
  induction parts with
  | nil => rfl
  | cons p ps ih =>
    cases ps with
    | nil =>
      exact hasCC_single p (h p (List.mem_cons_self p _)).2
    | cons q qs =>
      have hp := h p (List.mem_cons_self p _)
      have hq := h q (List.mem_cons_of_mem p (List.mem_cons_self q _))
      have hih := ih (fun r hr => h r (List.mem_cons_of_mem p hr))
      show hasCC (p ++ ':' :: joinChar ':' (q :: qs)) = false
      rw [hasCC_append_left p _ hp.2]
      cases hqd : q with
      | nil => exact absurd hqd hq.1
      | cons y ys =>
        subst hqd
        have hy : y ≠ ':' := hq.2 y (List.mem_cons_self y ys)
        have hih2 : hasCC (joinChar ':' ((y :: ys) :: qs)) = false := hih
        have hj : ∃ ys2, joinChar ':' ((y :: ys) :: qs) = y :: ys2 := by
          cases qs with
          | nil => exact ⟨ys, by simp [joinChar]⟩
          | cons r rs =>
            refine ⟨ys ++ ':' :: joinChar ':' (r :: rs), ?_⟩
            rw [show joinChar ':' ((y :: ys) :: r :: rs) = (y :: ys) ++ ':' :: joinChar ':' (r :: rs) from rfl]
            simp
        obtain ⟨ys2, hj⟩ := hj
        rw [hj]
        rw [hj] at hih2
        simp only [hasCC]
        simp [hy, hih2]

theorem natToHex_colon_free (n : Nat) : ∀ x ∈ natToHex n, x ≠ ':' :=
  fun x hx => isHex_ne_colon x (natToHex_all_hex n x hx)

theorem ipv6Str_data8 (g0 g1 g2 g3 g4 g5 g6 g7 : Nat) :
    (ipv6Str [g0, g1, g2, g3, g4, g5, g6, g7]).data
      = natToHex g0 ++ ':' :: (natToHex g1 ++ ':' :: (natToHex g2 ++ ':' :: (natToHex g3 ++
        ':' :: (natToHex g4 ++ ':' :: (natToHex g5 ++ ':' :: (natToHex g6 ++
        ':' :: natToHex g7)))))) := by
  simp [ipv6Str, joinChar, List.append_assoc]

theorem normalize_ipv6 (g0 g1 g2 g3 g4 g5 g6 g7 : Nat) :
    normalizeMappedIPv4 (ipv6Str [g0, g1, g2, g3, g4, g5, g6, g7])
      = ipv6Str [g0, g1, g2, g3, g4, g5, g6, g7] := by
  obtain ⟨x, rest, hx, hhex⟩ := natToHex_head_hex g0
  refine normalizeMappedIPv4_eq_self _ x
    (rest ++ ':' :: (natToHex g1 ++ ':' :: (natToHex g2 ++ ':' :: (natToHex g3 ++
      ':' :: (natToHex g4 ++ ':' :: (natToHex g5 ++ ':' :: (natToHex g6 ++
      ':' :: natToHex g7)))))))
    (by rw [ipv6Str_data8, hx]; simp) (isHex_ne_colon x hhex)

theorem contains_colon_ipv6 (g0 g1 g2 g3 g4 g5 g6 g7 : Nat) :
    containsChar ':' (ipv6Str [g0, g1, g2, g3, g4, g5, g6, g7]).data = true := by
  rw [ipv6Str_data8]
  exact containsChar_append_self ':' _ _

theorem hasCC_ipv6 (g0 g1 g2 g3 g4 g5 g6 g7 : Nat) :
    hasCC (ipv6Str [g0, g1, g2, g3, g4, g5, g6, g7]).data = false := by
  show hasCC (joinChar ':' ([g0, g1, g2, g3, g4, g5, g6, g7].map natToHex)) = false
  refine hasCC_joinChar _ ?_
  intro p hp
  simp only [List.map_cons, List.map_nil, List.mem_cons, List.not_mem_nil, or_false] at hp
  rcases hp with h | h | h | h | h | h | h | h <;>
    exact h ▸ ⟨natToHex_ne_nil _, natToHex_colon_free _⟩

theorem splitChar_colon_ipv6 (g0 g1 g2 g3 g4 g5 g6 g7 : Nat) :
    splitChar ':' (ipv6Str [g0, g1, g2, g3, g4, g5, g6, g7]).data
      = [natToHex g0, natToHex g1, natToHex g2, natToHex g3,
         natToHex g4, natToHex g5, natToHex g6, natToHex g7] := by
  rw [ipv6Str_data8]
  rw [splitChar_sep ':' _ _ (natToHex_colon_free g0)]
  rw [splitChar_sep ':' _ _ (natToHex_colon_free g1)]
  rw [splitChar_sep ':' _ _ (natToHex_colon_free g2)]
  rw [splitChar_sep ':' _ _ (natToHex_colon_free g3)]
  rw [splitChar_sep ':' _ _ (natToHex_colon_free g4)]
  rw [splitChar_sep ':' _ _ (natToHex_colon_free g5)]
  rw [splitChar_sep ':' _ _ (natToHex_colon_free g6)]
  rw [splitChar_no_sep ':' _ (natToHex_colon_free g7)]

theorem expand_ipv6 (g0 g1 g2 g3 g4 g5 g6 g7 : Nat) :
    expandIPv6Parts (ipv6Str [g0, g1, g2, g3, g4, g5, g6, g7])
      = [some g0, some g1, some g2, some g3, some g4, some g5, some g6, some g7] := by
  unfold expandIPv6Parts
  rw [hasCC_ipv6]
  simp only [Bool.false_eq_true, not_false_iff, if_true, if_pos]
  rw [splitChar_colon_ipv6]
  simp [natToHex_ne_nil, jsParseIntHex_natToHex]

theorem writeGroups_eval (g0 g1 g2 g3 g4 g5 g6 g7 : Nat)
    (h0 : g0 < 65536) (h1 : g1 < 65536) (h2 : g2 < 65536) (h3 : g3 < 65536)
    (h4 : g4 < 65536) (h5 : g5 < 65536) (h6 : g6 < 65536) (h7 : g7 < 65536) :
    writeGroups [g0, g1, g2, g3, g4, g5, g6, g7]
      = some [g0 / 256, g0 % 256, g1 / 256, g1 % 256, g2 / 256, g2 % 256,
              g3 / 256, g3 % 256, g4 / 256, g4 % 256, g5 / 256, g5 % 256,
              g6 / 256, g6 % 256, g7 / 256, g7 % 256] := by
  simp [writeGroups, writeUInt16BE, h0, h1, h2, h3, h4, h5, h6, h7]

theorem generate_ipv6 (g0 g1 g2 g3 g4 g5 g6 g7 k0 k1 k2 k3 k4 k5 k6 k7 sport dport : Nat)
    (h0 : g0 < 65536) (h1 : g1 < 65536) (h2 : g2 < 65536) (h3 : g3 < 65536)
    (h4 : g4 < 65536) (h5 : g5 < 65536) (h6 : g6 < 65536) (h7 : g7 < 65536)
    (m0 : k0 < 65536) (m1 : k1 < 65536) (m2 : k2 < 65536) (m3 : k3 < 65536)
    (m4 : k4 < 65536) (m5 : k5 < 65536) (m6 : k6 < 65536) (m7 : k7 < 65536)
    (hsp : sport < 65536) (hdp : dport < 65536) (isUDP : Bool) :
    generateProxyProtocolV2Header (ipv6Str [g0, g1, g2, g3, g4, g5, g6, g7]) sport
        (ipv6Str [k0, k1, k2, k3, k4, k5, k6, k7]) dport isUDP
      = some (13 :: 10 :: 13 :: 10 :: 0 :: 13 :: 10 :: 81 :: 85 :: 73 :: 84 :: 10 ::
          33 :: (if isUDP then 34 else 33) :: 0 :: 36 ::
          g0 / 256 :: g0 % 256 :: g1 / 256 :: g1 % 256 :: g2 / 256 :: g2 % 256 ::
          g3 / 256 :: g3 % 256 :: g4 / 256 :: g4 % 256 :: g5 / 256 :: g5 % 256 ::
          g6 / 256 :: g6 % 256 :: g7 / 256 :: g7 % 256 ::
          k0 / 256 :: k0 % 256 :: k1 / 256 :: k1 % 256 :: k2 / 256 :: k2 % 256 ::
          k3 / 256 :: k3 % 256 :: k4 / 256 :: k4 % 256 :: k5 / 256 :: k5 % 256 ::
          k6 / 256 :: k6 % 256 :: k7 / 256 :: k7 % 256 ::
          sport / 256 :: sport % 256 :: dport / 256 :: dport % 256 :: []) := by
  cases isUDP <;>
  · simp only [generateProxyProtocolV2Header, normalize_ipv6, contains_colon_ipv6, if_true,
      expand_ipv6]
    rw [show (List.range 8).map (jsIdxOr0 [some g0, some g1, some g2, some g3, some g4, some g5, some g6, some g7]) = [g0, g1, g2, g3, g4, g5, g6, g7] from by
      simp [List.range_succ, jsIdxOr0]]
    rw [show (List.range 8).map (jsIdxOr0 [some k0, some k1, some k2, some k3, some k4, some k5, some k6, some k7]) = [k0, k1, k2, k3, k4, k5, k6, k7] from by
      simp [List.range_succ, jsIdxOr0]]
    rw [writeGroups_eval g0 g1 g2 g3 g4 g5 g6 g7 h0 h1 h2 h3 h4 h5 h6 h7]
    rw [writeGroups_eval k0 k1 k2 k3 k4 k5 k6 k7 m0 m1 m2 m3 m4 m5 m6 m7]
    simp [writeUInt16BE, hsp, hdp, PROXY_V2_SIGNATURE]

theorem parse_ipv6 (x0 y0 x1 y1 x2 y2 x3 y3 x4 y4 x5 y5 x6 y6 x7 y7
    u0 v0 u1 v1 u2 v2 u3 v3 u4 v4 u5 v5 u6 v6 u7 v7 s1 s2 t1 t2 : Nat) (isUDP : Bool) :
    parseProxyV2 (13 :: 10 :: 13 :: 10 :: 0 :: 13 :: 10 :: 81 :: 85 :: 73 :: 84 :: 10 ::
          33 :: (if isUDP then 34 else 33) :: 0 :: 36 ::
          x0 :: y0 :: x1 :: y1 :: x2 :: y2 :: x3 :: y3 ::
          x4 :: y4 :: x5 :: y5 :: x6 :: y6 :: x7 :: y7 ::
          u0 :: v0 :: u1 :: v1 :: u2 :: v2 :: u3 :: v3 ::
          u4 :: v4 :: u5 :: v5 :: u6 :: v6 :: u7 :: v7 ::
          s1 :: s2 :: t1 :: t2 :: [])
      = some { version := 2, command := PPCommand.PROXY, family := PPFamily.INET6,
               protocol := if isUDP then PPTransport.DGRAM else PPTransport.STREAM,
               sourceAddress := ipv6Str [x0 * 256 + y0, x1 * 256 + y1, x2 * 256 + y2,
                 x3 * 256 + y3, x4 * 256 + y4, x5 * 256 + y5, x6 * 256 + y6, x7 * 256 + y7],
               destAddress := ipv6Str [u0 * 256 + v0, u1 * 256 + v1, u2 * 256 + v2,
                 u3 * 256 + v3, u4 * 256 + v4, u5 * 256 + v5, u6 * 256 + v6, u7 * 256 + v7],
               sourcePort := s1 * 256 + s2, destPort := t1 * 256 + t2,
               headerLength := 52 } := by
  cases isUDP <;>
  · simp only [if_true, if_false, Bool.false_eq_true]
    simp [parseProxyV2, isProxyV2, PROXY_V2_SIGNATURE, readUInt16BE, List.getD,
      formatIPv6, List.range_succ, ipv6Str, joinChar]
    simp only [show ((33:Nat) &&& 240) >>> 4 = 2 by rfl, show ((33:Nat) &&& 15) = 1 by rfl,
      show ((34:Nat) &&& 240) >>> 4 = 2 by rfl, show ((34:Nat) &&& 15) = 2 by rfl]
    simp

theorem startsWithL_append_self (p rest : List Char) : startsWithL p (p ++ rest) = true := by
  induction p with
  | nil => rfl
  | cons c cs ih => simp [startsWithL, ih]

theorem natToDec_head_ok (n : Nat) :
    (natToDec n).head? ≠ some '0' ∨ natToDec n = ['0'] := by
  cases n with
  | zero => right; rfl
  | succ m =>
    left
    obtain ⟨d, hd1, hd2, hd3⟩ := toDigitsAux_head 10 digitChar (by omega) (m + 2) (m + 1)
      (by omega) (nat_lt_pow_self 10 (m + 1) (by omega))
    intro he
    rw [show natToDec (m + 1) = toDigitsAux 10 digitChar (m + 2) (m + 1) from rfl, hd3] at he
    exact digitChar_ne_zero d hd1 hd2 (Option.some.injEq _ _ ▸ he)

theorem isIPv4String_ipv4Str (a b c d : Nat)
    (ha : a ≤ 255) (hb : b ≤ 255) (hc : c ≤ 255) (hd : d ≤ 255) :
    isIPv4String (ipv4Str a b c d).data = true := by
  simp only [isIPv4String, splitChar_dot_ipv4]
  simp [natToDec_ne_nil, decVal_natToDec,
    List.all_eq_true.2 (natToDec_all_digits a), List.all_eq_true.2 (natToDec_all_digits b),
    List.all_eq_true.2 (natToDec_all_digits c), List.all_eq_true.2 (natToDec_all_digits d),
    ha, hb, hc, hd]
  refine ⟨?_, ?_, ?_, ?_⟩ <;>
  · first
    | exact (natToDec_head_ok _).imp (fun h => h) (fun h => h)

theorem splitChar_mapped (a b c d : Nat) :
    splitChar ':' ("::ffff:" ++ ipv4Str a b c d).data
      = [[], [], ['f', 'f', 'f', 'f'], (ipv4Str a b c d).data] := by
  have hdata : ("::ffff:" ++ ipv4Str a b c d).data
      = ':' :: ':' :: ('f' :: 'f' :: 'f' :: 'f' :: []) ++ ':' :: (ipv4Str a b c d).data := by
    rw [String.data_append]
    rfl
  rw [hdata]
  rw [show (':' :: ':' :: ('f' :: 'f' :: 'f' :: 'f' :: []) ++ ':' :: (ipv4Str a b c d).data)
      = ([] : List Char) ++ ':' :: (([] : List Char) ++ ':' :: (('f' :: 'f' :: 'f' :: 'f' :: []) ++ ':' :: (ipv4Str a b c d).data)) from by simp]
  rw [splitChar_sep ':' [] _ (by simp)]
  rw [splitChar_sep ':' [] _ (by simp)]
  rw [splitChar_sep ':' ['f', 'f', 'f', 'f'] _ (by decide)]
  rw [splitChar_no_sep ':' _ ((containsChar_eq_false ':' _).1 (contains_colon_ipv4 a b c d))]

theorem normalize_mapped (a b c d : Nat)
    (ha : a ≤ 255) (hb : b ≤ 255) (hc : c ≤ 255) (hd : d ≤ 255) :
    normalizeMappedIPv4 ("::ffff:" ++ ipv4Str a b c d) = ipv4Str a b c d := by
  unfold normalizeMappedIPv4
  rw [if_pos (by
    rw [String.data_append]
    exact startsWithL_append_self _ _)]
  rw [splitChar_mapped]
  simp only [List.length_cons, List.length_nil]
  rw [show (3 + 1 - 1 : Nat) = 3 from rfl]
  simp only [List.getD_cons_succ, List.getD_cons_zero]
  rw [if_pos (isIPv4String_ipv4Str a b c d ha hb hc hd)]

set_option maxRecDepth 8000 in
/-- Claim C2 (corrected): the PPv2 round-trip holds for addresses written in
    the canonical textual forms the codec itself produces.  (1) For dotted-quad
    IPv4 source and destination strings built from in-range bytes, parsing the
    generated header returns the same addresses and ports, family `INET`, and
    protocol `DGRAM` iff `isUDP`.  (2) For fully expanded eight-group IPv6
    strings with in-range group values it returns the same addresses and
    ports, family `INET6`.  (3) An IPv4-mapped source `::ffff:a.b.c.d` is
    first normalized to `a.b.c.d`, so generation agrees with the plain
    dotted-quad source. -/
theorem ppv2_roundtrip_canonical :
    (∀ a b c d a2 b2 c2 d2 sport dport : Nat, ∀ isUDP : Bool,
      a ≤ 255 → b ≤ 255 → c ≤ 255 → d ≤ 255 →
      a2 ≤ 255 → b2 ≤ 255 → c2 ≤ 255 → d2 ≤ 255 →
      sport < 65536 → dport < 65536 →
      (generateProxyProtocolV2Header (ipv4Str a b c d) sport (ipv4Str a2 b2 c2 d2) dport isUDP).bind parseProxyV2
        = some { version := 2, command := PPCommand.PROXY, family := PPFamily.INET,
                 protocol := if isUDP then PPTransport.DGRAM else PPTransport.STREAM,
                 sourceAddress := ipv4Str a b c d, destAddress := ipv4Str a2 b2 c2 d2,
                 sourcePort := sport, destPort := dport, headerLength := 28 })
  ∧ (∀ g0 g1 g2 g3 g4 g5 g6 g7 k0 k1 k2 k3 k4 k5 k6 k7 sport dport : Nat, ∀ isUDP : Bool,
      g0 < 65536 → g1 < 65536 → g2 < 65536 → g3 < 65536 →
      g4 < 65536 → g5 < 65536 → g6 < 65536 → g7 < 65536 →
      k0 < 65536 → k1 < 65536 → k2 < 65536 → k3 < 65536 →
      k4 < 65536 → k5 < 65536 → k6 < 65536 → k7 < 65536 →
      sport < 65536 → dport < 65536 →
      (generateProxyProtocolV2Header (ipv6Str [g0, g1, g2, g3, g4, g5, g6, g7]) sport
          (ipv6Str [k0, k1, k2, k3, k4, k5, k6, k7]) dport isUDP).bind parseProxyV2
        = some { version := 2, command := PPCommand.PROXY, family := PPFamily.INET6,
                 protocol := if isUDP then PPTransport.DGRAM else PPTransport.STREAM,
                 sourceAddress := ipv6Str [g0, g1, g2, g3, g4, g5, g6, g7],
                 destAddress := ipv6Str [k0, k1, k2, k3, k4, k5, k6, k7],
                 sourcePort := sport, destPort := dport, headerLength := 52 })
  ∧ (∀ a b c d sport dport : Nat, ∀ dip : String, ∀ isUDP : Bool,
      a ≤ 255 → b ≤ 255 → c ≤ 255 → d ≤ 255 →
      generateProxyProtocolV2Header ("::ffff:" ++ ipv4Str a b c d) sport dip dport isUDP
        = generateProxyProtocolV2Header (ipv4Str a b c d) sport dip dport isUDP) := by
  refine ⟨?_, ?_, ?_⟩
  · intro a b c d a2 b2 c2 d2 sport dport isUDP ha hb hc hd ha2 hb2 hc2 hd2 hsp hdp
    rw [generate_ipv4 a b c d a2 b2 c2 d2 sport dport ha hb hc hd ha2 hb2 hc2 hd2 hsp hdp isUDP]
    exact parse_ipv4 a b c d a2 b2 c2 d2 sport dport isUDP
  · intro g0 g1 g2 g3 g4 g5 g6 g7 k0 k1 k2 k3 k4 k5 k6 k7 sport dport isUDP
    intro h0 h1 h2 h3 h4 h5 h6 h7 m0 m1 m2 m3 m4 m5 m6 m7 hsp hdp
    rw [generate_ipv6 g0 g1 g2 g3 g4 g5 g6 g7 k0 k1 k2 k3 k4 k5 k6 k7 sport dport
      h0 h1 h2 h3 h4 h5 h6 h7 m0 m1 m2 m3 m4 m5 m6 m7 hsp hdp isUDP]
    have e : ∀ n : Nat, n / 256 * 256 + n % 256 = n := fun n => by omega
    have hp := parse_ipv6 (g0 / 256) (g0 % 256) (g1 / 256) (g1 % 256)
      (g2 / 256) (g2 % 256) (g3 / 256) (g3 % 256) (g4 / 256) (g4 % 256)
      (g5 / 256) (g5 % 256) (g6 / 256) (g6 % 256) (g7 / 256) (g7 % 256)
      (k0 / 256) (k0 % 256) (k1 / 256) (k1 % 256) (k2 / 256) (k2 % 256)
      (k3 / 256) (k3 % 256) (k4 / 256) (k4 % 256) (k5 / 256) (k5 % 256)
      (k6 / 256) (k6 % 256) (k7 / 256) (k7 % 256)
      (sport / 256) (sport % 256) (dport / 256) (dport % 256) isUDP
    rw [e g0, e g1, e g2, e g3, e g4, e g5, e g6, e g7,
      e k0, e k1, e k2, e k3, e k4, e k5, e k6, e k7, e sport, e dport] at hp
    exact hp
  · intro a b c d sport dport dip isUDP ha hb hc hd
    simp only [generateProxyProtocolV2Header, normalize_mapped a b c d ha hb hc hd,
      normalize_ipv4]

set_option maxRecDepth 8000 in
theorem ppv2_roundtrip_canonical_witness :
    (generateProxyProtocolV2Header (ipv4Str 192 168 0 1) 25565 (ipv4Str 10 0 0 1) 80 false).bind parseProxyV2
      = some { version := 2, command := PPCommand.PROXY, family := PPFamily.INET,
               protocol := PPTransport.STREAM, sourceAddress := ipv4Str 192 168 0 1,
               destAddress := ipv4Str 10 0 0 1, sourcePort := 25565, destPort := 80,
               headerLength := 28 } :=
  ppv2_roundtrip_canonical.1 192 168 0 1 10 0 0 1 25565 80 false
    (by decide) (by decide) (by decide) (by decide) (by decide) (by decide) (by decide)
    (by decide) (by decide) (by decide)

/-! ### Claim C6: invariant of the pending-buffer trace machine -/

theorem mem_eraseA {α β : Type} [DecidableEq α] (k : α) (l : List (α × β)) (p : α × β)
    (h : p ∈ eraseA k l) : p ∈ l := by
  induction l with
  | nil => simp [eraseA] at h
  | cons q rest ih =>
    obtain ⟨k1, v1⟩ := q
    simp only [eraseA] at h
    by_cases h1 : k1 = k
    · rw [if_pos h1] at h
      exact List.mem_cons_of_mem _ h
    · rw [if_neg h1] at h
      rcases List.mem_cons.1 h with h2 | h2
      · exact List.mem_cons.2 (Or.inl h2)
      · exact List.mem_cons_of_mem _ (ih h2)

theorem eraseA_keys_nodup {α β : Type} [DecidableEq α] (k : α) (l : List (α × β))
    (h : (l.map Prod.fst).Nodup) : ((eraseA k l).map Prod.fst).Nodup := by
  induction l with
  | nil => simp [eraseA]
  | cons q rest ih =>
    obtain ⟨k1, v1⟩ := q
    simp only [List.map_cons, List.nodup_cons] at h
    simp only [eraseA]
    by_cases h1 : k1 = k
    · rw [if_pos h1]
      exact h.2
    · rw [if_neg h1]
      simp only [List.map_cons, List.nodup_cons]
      refine ⟨?_, ih h.2⟩
      intro hmem
      simp only [List.mem_map] at hmem
      obtain ⟨p, hp, hpk⟩ := hmem
      exact h.1 (List.mem_map.2 ⟨p, mem_eraseA k rest p hp, hpk⟩)

theorem lookupA_eraseA_self {α β : Type} [DecidableEq α] (k : α) (l : List (α × β))
    (h : (l.map Prod.fst).Nodup) : lookupA k (eraseA k l) = none := by
  induction l with
  | nil => rfl
  | cons q rest ih =>
    obtain ⟨k1, v1⟩ := q
    simp only [List.map_cons, List.nodup_cons] at h
    simp only [eraseA]
    by_cases h1 : k1 = k
    · rw [if_pos h1]
      subst h1
      refine lookupA_none_of_not_mem k1 rest ?_
      intro p hp he
      exact h.1 (List.mem_map.2 ⟨p, hp, he⟩)
    · rw [if_neg h1]
      simp only [lookupA]
      rw [if_neg h1]
      exact ih h.2

theorem lookupA_eraseA_ne {α β : Type} [DecidableEq α] (k k2 : α) (l : List (α × β))
    (h : ¬(k2 = k)) : lookupA k2 (eraseA k l) = lookupA k2 l := by
  induction l with
  | nil => rfl
  | cons q rest ih =>
    obtain ⟨k1, v1⟩ := q
    simp only [eraseA, lookupA]
    by_cases h1 : k1 = k
    · rw [if_pos h1]
      rw [if_neg (show ¬(k1 = k2) from fun he => h (by rw [← he, h1]))]
    · rw [if_neg h1]
      simp only [lookupA]
      by_cases h2 : k1 = k2
      · rw [if_pos h2, if_pos h2]
      · rw [if_neg h2, if_neg h2]
        exact ih

theorem mem_eraseFirst {α : Type} [DecidableEq α] (a : α) (l : List α) (x : α)
    (h : x ∈ eraseFirst a l) : x ∈ l := by
  induction l with
  | nil => simp [eraseFirst] at h
  | cons y rest ih =>
    simp only [eraseFirst] at h
    by_cases h1 : y = a
    · rw [if_pos h1] at h
      exact List.mem_cons_of_mem _ h
    · rw [if_neg h1] at h
      rcases List.mem_cons.1 h with h2 | h2
      · exact List.mem_cons.2 (Or.inl h2)
      · exact List.mem_cons_of_mem _ (ih h2)

theorem mem_eraseFirst_of_ne {α : Type} [DecidableEq α] (a : α) (l : List α) (x : α)
    (hx : x ∈ l) (hne : x ≠ a) : x ∈ eraseFirst a l := by
  induction l with
  | nil => simp at hx
  | cons y rest ih =>
    simp only [eraseFirst]
    by_cases h1 : y = a
    · rw [if_pos h1]
      rcases List.mem_cons.1 hx with h2 | h2
      · exact absurd (h2.trans h1) hne
      · exact h2
    · rw [if_neg h1]
      rcases List.mem_cons.1 hx with h2 | h2
      · exact List.mem_cons.2 (Or.inl h2)
      · exact List.mem_cons_of_mem _ (ih h2)

theorem eraseFirst_nodup {α : Type} [DecidableEq α] (a : α) (l : List α)
    (h : l.Nodup) : (eraseFirst a l).Nodup := by
  induction l with
  | nil => simp [eraseFirst]
  | cons y rest ih =>
    simp only [List.nodup_cons] at h
    simp only [eraseFirst]
    by_cases h1 : y = a
    · rw [if_pos h1]
      exact h.2
    · rw [if_neg h1]
      simp only [List.nodup_cons]
      exact ⟨fun hm => h.1 (mem_eraseFirst a rest y hm), ih h.2⟩

theorem fst_nodup_inj {α β : Type} (J : List (α × β)) (h : (J.map Prod.fst).Nodup)
    {c : α} {a b : β} (ha : (c, a) ∈ J) (hb : (c, b) ∈ J) : a = b := by
  induction J with
  | nil => simp at ha
  | cons q rest ih =>
    simp only [List.map_cons, List.nodup_cons] at h
    rcases List.mem_cons.1 ha with h1 | h1 <;> rcases List.mem_cons.1 hb with h2 | h2
    · rw [← h1] at h2
      exact (Prod.mk.injEq _ _ _ _ ▸ h2).2.symm
    · exfalso
      exact h.1 (List.mem_map.2 ⟨(c, b), h2, by rw [← h1]⟩)
    · exfalso
      exact h.1 (List.mem_map.2 ⟨(c, a), h1, by rw [← h2]⟩)
    · exact ih h.2 h1 h2

theorem snd_nodup_inj {α β : Type} (J : List (α × β)) (h : (J.map Prod.snd).Nodup)
    {k : β} {a b : α} (ha : (a, k) ∈ J) (hb : (b, k) ∈ J) : a = b := by
  induction J with
  | nil => simp at ha
  | cons q rest ih =>
    simp only [List.map_cons, List.nodup_cons] at h
    rcases List.mem_cons.1 ha with h1 | h1 <;> rcases List.mem_cons.1 hb with h2 | h2
    · rw [← h1] at h2
      exact (Prod.mk.injEq _ _ _ _ ▸ h2).1.symm
    · exfalso
      exact h.1 (List.mem_map.2 ⟨(b, k), h2, by rw [← h1]⟩)
    · exfalso
      exact h.1 (List.mem_map.2 ⟨(a, k), h1, by rw [← h2]⟩)
    · exact ih h.2 h1 h2

theorem filter_singleton_unique {α : Type} (l : List α) (p : α → Bool) (x : α)
    (hnd : l.Nodup) (hx : x ∈ l) (hpx : p x = true)
    (huniq : ∀ y ∈ l, p y = true → y = x) : l.filter p = [x] := by
  induction l with
  | nil => simp at hx
  | cons a rest ih =>
    simp only [List.nodup_cons] at hnd
    rcases List.mem_cons.1 hx with h1 | h1
    · subst h1
      rw [List.filter_cons_of_pos hpx]
      have : rest.filter p = [] := by
        rw [List.filter_eq_nil_iff]
        intro y hy hp
        exact absurd (huniq y (List.mem_cons_of_mem _ hy) hp ▸ hy) hnd.1
      rw [this]
    · have hax : ¬(p a = true) := by
        intro hp
        have := huniq a (List.mem_cons_self a rest) hp
        subst this
        exact hnd.1 h1
      rw [List.filter_cons_of_neg (by simpa using hax)]
      exact ih hnd.2 h1 (fun y hy hp => huniq y (List.mem_cons_of_mem _ hy) hp)

theorem processLoop_filter (ts : Int) (l : List (String × PendingConnection)) :
    processLoop ts l
      = (((l.filter (fun kp => |kp.2.timestamp - ts| < TOLERANCE_MS)).map Prod.snd),
         l.filter (fun kp => ¬(|kp.2.timestamp - ts| < TOLERANCE_MS))) := by
  induction l with
  | nil => rfl
  | cons kp rest ih =>
    obtain ⟨k, p⟩ := kp
    simp only [processLoop, ih]
    by_cases h : |p.timestamp - ts| < TOLERANCE_MS
    · rw [if_pos h, List.filter_cons_of_pos (by simpa using h),
        List.filter_cons_of_neg (by simpa using h)]
      rfl
    · rw [if_neg h, List.filter_cons_of_neg (by simpa using h),
        List.filter_cons_of_pos (by simpa using h)]

theorem cntR_zero_of_not_mem (c : Nat) (m : BufMachine)
    (h : ∀ r ∈ m.removedLog, ¬(r.1 = c)) : cntR c m = 0 := by
  unfold cntR
  rw [List.filter_eq_nil_iff.2 (by simpa using h)]
  rfl

theorem cntI_zero_of_not_mem (c : Nat) (m : BufMachine)
    (h : c ∉ m.invokedLog) : cntI c m = 0 :=
  List.count_eq_zero.2 h

theorem cntT_zero_of_cntR_zero (c : Nat) (m : BufMachine)
    (h : cntR c m = 0) : cntT c m = 0 := by
  unfold cntR at h
  unfold cntT
  rw [List.length_eq_zero] at h
  rw [List.filter_eq_nil_iff] at h
  rw [List.filter_eq_nil_iff.2 ?_]
  · rfl
  · intro r hr
    simp only [Bool.and_eq_true, decide_eq_true_eq, not_and]
    intro he
    exact absurd (by simpa using he) (h r hr)

theorem bufInv_insert (J : List (Nat × String)) (m : BufMachine)
    (ip : String) (port : Nat) (protocol : Protocol) (arrival : Int)
    (target : String) (cbid : Nat)
    (hinv : bufInv J m)
    (hfresh1 : cbid ∉ J.map Prod.fst)
    (hfresh2 : pendingKey ip port protocol ∉ J.map Prod.snd) :
    bufInv (J ++ [(cbid, pendingKey ip port protocol)])
      (bufStep m (BufEvent.insert ip port protocol arrival target cbid)) := by
  obtain ⟨W1, W2, W3, W4, W5, W6, W7, W8⟩ := hinv
  set key := pendingKey ip port protocol with hkey
  have hkfresh : ∀ p ∈ m.pending, p.1 ≠ key := by
    intro p hp he
    exact hfresh2 (List.mem_map.2 ⟨(p.2.cbid, p.1), W4 p hp, he⟩)
  have hset : addPending ip port protocol arrival target cbid m.pending
      = m.pending ++ [(key, ⟨ip, port, protocol, arrival, target, cbid⟩)] :=
    setA_fresh key _ m.pending hkfresh
  simp only [bufStep, hset]
  refine ⟨W1, ?_, ?_, ?_, ?_, ?_, ?_, ?_⟩
  · intro r hr
    simp only [List.map_append, List.mem_append]
    exact Or.inl (W2 r hr)
  · intro c hc
    simp only [List.map_append, List.mem_append]
    exact Or.inl (W3 c hc)
  · intro kp hkp
    rcases List.mem_append.1 hkp with h1 | h1
    · exact List.mem_append.2 (Or.inl (W4 kp h1))
    · simp only [List.mem_singleton] at h1
      subst h1
      exact List.mem_append.2 (Or.inr (by simp))
  · simp only [List.map_append]
    rw [List.nodup_append]
    refine ⟨W5, by simp, ?_⟩
    intro k1 hk1 hk2
    simp only [List.map_cons, List.map_nil, List.mem_singleton] at hk2
    subst hk2
    simp only [List.mem_map] at hk1
    obtain ⟨p, hp, hpk⟩ := hk1
    exact hkfresh p hp hpk
  · intro t ht
    rcases List.mem_append.1 ht with h1 | h1
    · exact List.mem_append.2 (Or.inl (W6 t h1))
    · simp only [List.mem_singleton] at h1
      subst h1
      exact List.mem_append.2 (Or.inr (by simp))
  · rw [List.nodup_append]
    refine ⟨W7, by simp, ?_⟩
    intro t ht ht2
    simp only [List.mem_singleton] at ht2
    subst ht2
    exact hfresh1 (List.mem_map.2 ⟨(cbid, key), W6 _ ht, rfl⟩)
  · intro j hj
    rcases List.mem_append.1 hj with h1 | h1
    · have hg := W8 j h1
      have hne : j.2 ≠ key := by
        intro he
        exact hfresh2 (he ▸ List.mem_map.2 ⟨j, h1, rfl⟩)
      rcases hg with ⟨p, hlk, hpc, htm, hr0, hi0⟩ | ⟨hlk, hr1, hit⟩
      · refine Or.inl ⟨p, ?_, hpc, List.mem_append.2 (Or.inl htm), hr0, hi0⟩
        calc lookupA j.2 (m.pending ++ [(key, ⟨ip, port, protocol, arrival, target, cbid⟩)])
            = lookupA j.2 (setA key ⟨ip, port, protocol, arrival, target, cbid⟩ m.pending) := by
              rw [setA_fresh key _ m.pending hkfresh]
          _ = lookupA j.2 m.pending := lookupA_setA_ne key j.2 _ m.pending hne
          _ = some p := hlk
      · refine Or.inr ⟨?_, hr1, hit⟩
        calc lookupA j.2 (m.pending ++ [(key, ⟨ip, port, protocol, arrival, target, cbid⟩)])
            = lookupA j.2 (setA key ⟨ip, port, protocol, arrival, target, cbid⟩ m.pending) := by
              rw [setA_fresh key _ m.pending hkfresh]
          _ = lookupA j.2 m.pending := lookupA_setA_ne key j.2 _ m.pending hne
          _ = none := hlk
    · simp only [List.mem_singleton] at h1
      subst h1
      refine Or.inl ⟨⟨ip, port, protocol, arrival, target, cbid⟩, ?_, rfl,
        List.mem_append.2 (Or.inr (by simp)), ?_, ?_⟩
      · calc lookupA key (m.pending ++ [(key, ⟨ip, port, protocol, arrival, target, cbid⟩)])
            = lookupA key (setA key ⟨ip, port, protocol, arrival, target, cbid⟩ m.pending) := by
              rw [setA_fresh key _ m.pending hkfresh]
          _ = some ⟨ip, port, protocol, arrival, target, cbid⟩ := lookupA_setA_self key _ m.pending
      · exact cntR_zero_of_not_mem cbid _ (fun r hr he => hfresh1 (he ▸ W2 r hr))
      · exact cntI_zero_of_not_mem cbid _ (fun hc => hfresh1 (W3 cbid hc))

theorem filter_len_append_ne (log : List (Nat × RemovalCause)) (c d : Nat)
    (cause : RemovalCause) (h : ¬(d = c)) :
    (List.filter (fun r => r.1 = c) (log ++ [(d, cause)])).length
      = (List.filter (fun r => r.1 = c) log).length := by
  simp [List.filter_append, h]

theorem filter_len_append_ne2 (log : List (Nat × RemovalCause)) (c d : Nat)
    (cause : RemovalCause) (h : ¬(d = c)) :
    (List.filter (fun r => r.1 = c && isTimerCause r.2) (log ++ [(d, cause)])).length
      = (List.filter (fun r => r.1 = c && isTimerCause r.2) log).length := by
  simp [List.filter_append, h]

theorem count_append_ne (l : List Nat) (c d : Nat) (h : ¬(d = c)) :
    (l ++ [d]).count c = l.count c := by
  have h2 : ¬(c = d) := fun he => h he.symm
  simp [List.count_append, List.count_eq_zero, h2]

theorem bufInv_fire (J : List (Nat × String)) (m : BufMachine) (cbid : Nat) (key : String)
    (hinv : bufInv J m)
    (hfstN : (J.map Prod.fst).Nodup) (hsndN : (J.map Prod.snd).Nodup) :
    bufInv J (bufStep m (BufEvent.fire cbid key)) := by
  obtain ⟨W1, W2, W3, W4, W5, W6, W7, W8⟩ := hinv
  simp only [bufStep]
  by_cases hmem : (cbid, key) ∈ m.timers
  · rw [if_pos hmem]
    have hJpair : (cbid, key) ∈ J := W6 _ hmem
    cases hlk : lookupA key m.pending with
    | some p =>
      simp only [timeoutHandler, hlk]
      have hpmem : (key, p) ∈ m.pending := lookupA_some_mem key p m.pending hlk
      have hpJ : (p.cbid, key) ∈ J := W4 (key, p) hpmem
      have hpc : p.cbid = cbid := snd_nodup_inj J hsndN hpJ hJpair
      have hcnt0 : cntR cbid m = 0 ∧ cntI cbid m = 0 := by
        rcases W8 (cbid, key) hJpair with ⟨q, hq, _, _, hr0, hi0⟩ | ⟨hnone, _, _⟩
        · exact ⟨hr0, hi0⟩
        · rw [hnone] at hlk
          exact absurd hlk (by simp)
      refine ⟨?_, ?_, ?_, ?_, ?_, ?_, ?_, ?_⟩
      · intro r hr
        rcases List.mem_append.1 hr with h1 | h1
        · exact W1 r h1
        · simp only [List.mem_singleton] at h1
          subst h1
          left
          rw [hpc]
      · intro r hr
        rcases List.mem_append.1 hr with h1 | h1
        · exact W2 r h1
        · simp only [List.mem_singleton] at h1
          subst h1
          exact List.mem_map.2 ⟨(p.cbid, key), hpc ▸ hJpair, rfl⟩
      · intro c hc
        rcases List.mem_append.1 hc with h1 | h1
        · exact W3 c h1
        · simp only [List.mem_singleton] at h1
          subst h1
          exact List.mem_map.2 ⟨(p.cbid, key), hpc ▸ hJpair, rfl⟩
      · intro kp hkp
        exact W4 kp (mem_eraseA key m.pending kp hkp)
      · exact eraseA_keys_nodup key m.pending W5
      · intro t ht
        exact W6 t (mem_eraseFirst _ m.timers t ht)
      · exact eraseFirst_nodup _ m.timers W7
      · intro j hj
        obtain ⟨c2, k2⟩ := j
        by_cases hjeq : (c2, k2) = (cbid, key)
        · rw [hjeq]
          right
          refine ⟨lookupA_eraseA_self key m.pending W5, ?_, ?_⟩
          · show (List.filter (fun r => r.1 = cbid)
                (m.removedLog ++ [(p.cbid, RemovalCause.timer cbid)])).length = 1
            rw [List.filter_append, List.length_append,
              show (List.filter (fun r => r.1 = cbid) m.removedLog).length = 0 from hcnt0.1, hpc]
            simp
          · show (m.invokedLog ++ [p.cbid]).count cbid
                = (List.filter (fun r => r.1 = cbid && isTimerCause r.2)
                    (m.removedLog ++ [(p.cbid, RemovalCause.timer cbid)])).length
            rw [List.count_append, List.filter_append, List.length_append,
              show m.invokedLog.count cbid = 0 from hcnt0.2,
              show (List.filter (fun r => r.1 = cbid && isTimerCause r.2) m.removedLog).length = 0
                from cntT_zero_of_cntR_zero cbid m hcnt0.1, hpc]
            simp [isTimerCause]
        · have hj2 : ¬(k2 = key) := by
            intro he
            subst he
            have h3 : c2 = cbid := snd_nodup_inj J hsndN hj hJpair
            subst h3
            exact hjeq rfl
          have hj1 : ¬(c2 = cbid) := by
            intro he
            subst he
            have h3 : k2 = key := fst_nodup_inj J hfstN hj hJpair
            subst h3
            exact hjeq rfl
          have hne : ¬(p.cbid = c2) := fun he => hj1 (by rw [← he]; exact hpc)
          rcases W8 (c2, k2) hj with ⟨q, hq, hqc, htm2, hr0, hi0⟩ | ⟨hnone, hr1, hit⟩
          · left
            refine ⟨q, ?_, hqc, ?_, ?_, ?_⟩
            · show lookupA k2 (eraseA key m.pending) = some q
              rw [lookupA_eraseA_ne key k2 m.pending hj2]
              exact hq
            · exact mem_eraseFirst_of_ne _ m.timers _ htm2 hjeq
            · show (List.filter (fun r => r.1 = c2)
                  (m.removedLog ++ [(p.cbid, RemovalCause.timer cbid)])).length = 0
              rw [filter_len_append_ne _ _ _ _ hne]
              exact hr0
            · show (m.invokedLog ++ [p.cbid]).count c2 = 0
              rw [count_append_ne _ _ _ hne]
              exact hi0
          · right
            refine ⟨?_, ?_, ?_⟩
            · show lookupA k2 (eraseA key m.pending) = none
              rw [lookupA_eraseA_ne key k2 m.pending hj2]
              exact hnone
            · show (List.filter (fun r => r.1 = c2)
                  (m.removedLog ++ [(p.cbid, RemovalCause.timer cbid)])).length = 1
              rw [filter_len_append_ne _ _ _ _ hne]
              exact hr1
            · show (m.invokedLog ++ [p.cbid]).count c2
                  = (List.filter (fun r => r.1 = c2 && isTimerCause r.2)
                      (m.removedLog ++ [(p.cbid, RemovalCause.timer cbid)])).length
              rw [count_append_ne _ _ _ hne, filter_len_append_ne2 _ _ _ _ hne]
              exact hit
    | none =>
      simp only [timeoutHandler, hlk]
      refine ⟨W1, W2, W3, W4, W5, ?_, ?_, ?_⟩
      · intro t ht
        exact W6 t (mem_eraseFirst _ m.timers t ht)
      · exact eraseFirst_nodup _ m.timers W7
      · intro j hj
        rcases W8 j hj with ⟨q, hq, hqc, htm2, hr0, hi0⟩ | ⟨hnone, hr1, hit⟩
        · left
          refine ⟨q, hq, hqc, ?_, hr0, hi0⟩
          refine mem_eraseFirst_of_ne _ m.timers _ htm2 ?_
          intro he
          have h2 : j.2 = key := by
            have := congrArg Prod.snd he
            simpa using this
          rw [h2, hlk] at hq
          cases hq
        · exact Or.inr ⟨hnone, hr1, hit⟩
  · rw [if_neg hmem]
    exact ⟨W1, W2, W3, W4, W5, W6, W7, W8⟩

theorem len_filter_corr (l : List PendingConnection) (c : Nat) :
    ((l.map (fun p => (p.cbid, RemovalCause.correlation))).filter
      (fun r => r.1 = c)).length = (l.filter (fun p => p.cbid = c)).length := by
  induction l with
  | nil => rfl
  | cons a rest ih =>
    simp only [List.map_cons, List.filter_cons]
    by_cases h : a.cbid = c
    · simp [h, ih]
    · simp [h, ih]

theorem filter_corr_timer_nil (l : List PendingConnection) (c : Nat) :
    (l.map (fun p => (p.cbid, RemovalCause.correlation))).filter
      (fun r => r.1 = c && isTimerCause r.2) = [] := by
  rw [List.filter_eq_nil_iff]
  intro r hr
  obtain ⟨p, hp, he⟩ := List.mem_map.1 hr
  subst he
  simp [isTimerCause]

theorem len_filter_map_snd (l : List (String × PendingConnection))
    (q : PendingConnection → Bool) :
    ((l.map Prod.snd).filter q).length = (l.filter (fun kp => q kp.2)).length := by
  induction l with
  | nil => rfl
  | cons a rest ih =>
    simp only [List.map_cons, List.filter_cons]
    by_cases h : q a.2
    · simp [h, ih]
    · simp [h, ih]

theorem bufInv_login (J : List (Nat × String)) (m : BufMachine) (ts : Int)
    (hinv : bufInv J m)
    (hfstN : (J.map Prod.fst).Nodup) :
    bufInv J (bufStep m (BufEvent.login ts)) := by
  obtain ⟨W1, W2, W3, W4, W5, W6, W7, W8⟩ := hinv
  have hnd : m.pending.Nodup := W5.of_map
  simp only [bufStep, processPendingForPlayer, processLoop_filter]
  refine ⟨?_, ?_, ?_, ?_, ?_, W6, W7, ?_⟩
  · intro r hr
    rcases List.mem_append.1 hr with h1 | h1
    · exact W1 r h1
    · obtain ⟨p, hp, he⟩ := List.mem_map.1 h1
      subst he
      exact Or.inr rfl
  · intro r hr
    rcases List.mem_append.1 hr with h1 | h1
    · exact W2 r h1
    · obtain ⟨p, hp, he⟩ := List.mem_map.1 h1
      subst he
      obtain ⟨kp, hkp, he2⟩ := List.mem_map.1 hp
      have hkpm : kp ∈ m.pending := (List.mem_filter.1 hkp).1
      exact List.mem_map.2 ⟨(kp.2.cbid, kp.1), W4 kp hkpm, by rw [he2]⟩
  · exact W3
  · intro kp hkp
    exact W4 kp (List.mem_filter.1 hkp).1
  · exact W5.sublist (List.Sublist.map Prod.fst (List.filter_sublist _))
  · intro j hj
    obtain ⟨c2, k2⟩ := j
    have hcu : ∀ kp ∈ m.pending, kp.2.cbid = c2 → kp.1 = k2 := by
      intro kp hkp he
      exact fst_nodup_inj J hfstN (he ▸ W4 kp hkp) hj
    have hcntR :
        (List.filter (fun r => r.1 = c2)
          (m.removedLog ++
            (((m.pending.filter (fun kp => |kp.2.timestamp - ts| < TOLERANCE_MS)).map Prod.snd).map
              (fun p => (p.cbid, RemovalCause.correlation))))).length
          = cntR c2 m +
            (m.pending.filter (fun kp =>
              decide (kp.2.cbid = c2) && decide (|kp.2.timestamp - ts| < TOLERANCE_MS))).length := by
      rw [List.filter_append, List.length_append, len_filter_corr, len_filter_map_snd,
        List.filter_filter]
      rfl
    have hcntT :
        (List.filter (fun r => r.1 = c2 && isTimerCause r.2)
          (m.removedLog ++
            (((m.pending.filter (fun kp => |kp.2.timestamp - ts| < TOLERANCE_MS)).map Prod.snd).map
              (fun p => (p.cbid, RemovalCause.correlation))))).length
          = cntT c2 m := by
      rw [List.filter_append, List.length_append, filter_corr_timer_nil]
      simp [cntT]
    simp only [goodPair]
    rcases W8 (c2, k2) hj with ⟨p, hp, hpc, htm2, hr0, hi0⟩ | ⟨hnone, hr1, hit⟩
    · have hpmem : (k2, p) ∈ m.pending := lookupA_some_mem k2 p m.pending hp
      have huniq : ∀ y ∈ m.pending, (decide (y.2.cbid = c2)
            && decide (|y.2.timestamp - ts| < TOLERANCE_MS)) = true → y = (k2, p) := by
        intro y hy hq
        obtain ⟨y1, y2⟩ := y
        rw [Bool.and_eq_true, decide_eq_true_eq, decide_eq_true_eq] at hq
        have hk : y1 = k2 := hcu (y1, y2) hy hq.1
        have h2 : lookupA k2 m.pending = some y2 := by
          rw [← hk]
          exact lookupA_of_mem_nodup y1 y2 m.pending hy W5
        rw [hp] at h2
        have h3 : p = y2 := Option.some.inj h2
        rw [hk, ← h3]
      by_cases hf : |p.timestamp - ts| < TOLERANCE_MS
      · right
        refine ⟨?_, ?_, ?_⟩
        · refine lookupA_none_of_not_mem k2 _ ?_
          intro y hy he
          obtain ⟨hym, hyf⟩ := List.mem_filter.1 hy
          obtain ⟨y1, y2⟩ := y
          have hk : y1 = k2 := he
          have h2 : lookupA k2 m.pending = some y2 := by
            rw [← hk]
            exact lookupA_of_mem_nodup y1 y2 m.pending hym W5
          rw [hp] at h2
          have h3 : p = y2 := Option.some.inj h2
          rw [← h3] at hyf
          simp only [decide_eq_true_eq] at hyf
          exact hyf hf
        · simp only [cntR]
          rw [hcntR, hr0,
            filter_singleton_unique m.pending _ (k2, p) hnd hpmem (by simp [hf, hpc]) huniq]
          rfl
        · simp only [cntI, cntT]
          rw [hcntT, cntT_zero_of_cntR_zero c2 m hr0]
          exact hi0
      · left
        refine ⟨p, ?_, hpc, htm2, ?_, ?_⟩
        · refine lookupA_of_mem_nodup k2 p _ ?_ ?_
          · exact List.mem_filter.2 ⟨hpmem, by simpa using hf⟩
          · exact W5.sublist (List.Sublist.map Prod.fst (List.filter_sublist _))
        · simp only [cntR]
          rw [hcntR, hr0]
          have hz : m.pending.filter (fun kp =>
              decide (kp.2.cbid = c2) && decide (|kp.2.timestamp - ts| < TOLERANCE_MS)) = [] := by
            rw [List.filter_eq_nil_iff]
            intro y hy hq
            have h2 := huniq y hy hq
            rw [h2] at hq
            rw [Bool.and_eq_true, decide_eq_true_eq, decide_eq_true_eq] at hq
            exact hf hq.2
          rw [hz]
          rfl
        · exact hi0
    · have hkeys := lookupA_none_keys k2 m.pending hnone
      right
      refine ⟨?_, ?_, ?_⟩
      · refine lookupA_none_of_not_mem k2 _ ?_
        intro y hy
        exact hkeys y (List.mem_filter.1 hy).1
      · simp only [cntR]
        rw [hcntR, hr1]
        have hz : m.pending.filter (fun kp =>
            decide (kp.2.cbid = c2) && decide (|kp.2.timestamp - ts| < TOLERANCE_MS)) = [] := by
          rw [List.filter_eq_nil_iff]
          intro y hy hq
          rw [Bool.and_eq_true, decide_eq_true_eq, decide_eq_true_eq] at hq
          exact hkeys y hy (hcu y hy hq.1)
        rw [hz]
        rfl
      · simp only [cntI, cntT]
        rw [hcntT]
        exact hit

theorem bufInv_run (tr : List BufEvent) :
    ∀ (J : List (Nat × String)) (m : BufMachine),
      bufInv J m →
      ((J ++ insertsOf tr).map Prod.fst).Nodup →
      ((J ++ insertsOf tr).map Prod.snd).Nodup →
      bufInv (J ++ insertsOf tr) (tr.foldl bufStep m) := by
  induction tr with
  | nil =>
    intro J m hinv h1 h2
    simpa [insertsOf] using hinv
  | cons e tr ih =>
    intro J m hinv h1 h2
    cases e with
    | insert ip port protocol arrival target cbid =>
      have hins : insertsOf (BufEvent.insert ip port protocol arrival target cbid :: tr)
          = (cbid, pendingKey ip port protocol) :: insertsOf tr := rfl
      rw [hins] at h1 h2 ⊢
      have hf1 : cbid ∉ J.map Prod.fst := by
        intro hm
        rw [List.map_append, List.nodup_append] at h1
        exact h1.2.2 hm (by simp)
      have hf2 : pendingKey ip port protocol ∉ J.map Prod.snd := by
        intro hm
        rw [List.map_append, List.nodup_append] at h2
        exact h2.2.2 hm (by simp)
      have hstep := bufInv_insert J m ip port protocol arrival target cbid hinv hf1 hf2
      have hre : J ++ (cbid, pendingKey ip port protocol) :: insertsOf tr
          = (J ++ [(cbid, pendingKey ip port protocol)]) ++ insertsOf tr := by simp
      rw [hre] at h1 h2 ⊢
      exact ih (J ++ [(cbid, pendingKey ip port protocol)]) _ hstep h1 h2
    | fire cbid key =>
      have hJf : (J.map Prod.fst).Nodup := by
        have h := h1
        rw [List.map_append, List.nodup_append] at h
        exact h.1
      have hJs : (J.map Prod.snd).Nodup := by
        have h := h2
        rw [List.map_append, List.nodup_append] at h
        exact h.1
      exact ih J _ (bufInv_fire J m cbid key hinv hJf hJs) h1 h2
    | login ts =>
      have hJf : (J.map Prod.fst).Nodup := by
        have h := h1
        rw [List.map_append, List.nodup_append] at h
        exact h.1
      exact ih J _ (bufInv_login J m ts hinv hJf) h1 h2

/-- Claim C6 (corrected): provided no two insertions of the trace share a
    callback id or a flow key (`ip:port:protocol`), and the trace runs to
    quiescence (every scheduled timeout has fired), every inserted entry is
    removed exactly once — by the correlating login or by its own timeout,
    whichever comes first; every timeout removal is attributed to the entry's
    own timer; and an entry's callback is invoked (with no identity) exactly
    once when it timed out and never when it was correlated away.  Without the
    distinct-key proviso the property is false: a re-insertion under a live
    key is consumed by the earlier insertion's timeout
    (`bufferExclusive_counterexample`). -/
theorem pending_exclusive_distinct_keys (tr : List BufEvent)
    (hfst : ((insertsOf tr).map Prod.fst).Nodup)
    (hsnd : ((insertsOf tr).map Prod.snd).Nodup)
    (hfired : (runBuf tr).timers = []) :
    bufferExclusive tr = true := by
  have h0 : bufInv [] initBuf := by
    refine ⟨?_, ?_, ?_, ?_, ?_, ?_, ?_, ?_⟩ <;> simp [initBuf]
  have hfired2 : (tr.foldl bufStep initBuf).timers = [] := hfired
  have hrun := bufInv_run tr [] initBuf h0 (by simpa using hfst) (by simpa using hsnd)
  simp only [List.nil_append] at hrun
  obtain ⟨W1, W2, W3, W4, W5, W6, W7, W8⟩ := hrun
  simp only [bufferExclusive]
  rw [Bool.and_eq_true, Bool.and_eq_true]
  refine ⟨⟨?_, ?_⟩, ?_⟩
  · rw [List.all_eq_true]
    intro i hi
    simp only [decide_eq_true_eq]
    rcases W8 i hi with ⟨p, hp, hpc, htm, hr0, hi0⟩ | ⟨hnone, hr1, hit⟩
    · rw [hfired2] at htm
      simp at htm
    · exact hr1
  · rw [List.all_eq_true]
    intro r hr
    rcases W1 r hr with h | h
    · rw [h]
      simp
    · rw [h]
  · rw [List.all_eq_true]
    intro i hi
    simp only [decide_eq_true_eq]
    rcases W8 i hi with ⟨p, hp, hpc, htm, hr0, hi0⟩ | ⟨hnone, hr1, hit⟩
    · rw [hfired2] at htm
      simp at htm
    · exact hit

theorem pending_exclusive_distinct_keys_witness :
    ((insertsOf c6GoodTrace).map Prod.fst).Nodup ∧
    ((insertsOf c6GoodTrace).map Prod.snd).Nodup ∧
    (runBuf c6GoodTrace).timers = [] ∧
    bufferExclusive c6GoodTrace = true :=
  ⟨by decide, by decide, by decide,
    pending_exclusive_distinct_keys c6GoodTrace (by decide) (by decide) (by decide)⟩
